import Mathlib

/-!
Shallow embedding of the `music-types` Rust crate (src/harmony): the dual
diatonic/chromatic step algebra (`Interval`, `Pitch`), the notation codec
(Display / FromStr for intervals, pitches and accidentals), the scale and
mode engine, and the accidental rendering engine.

Machine integers (`i16`) are embedded as `Int`; the theorems below
restrict themselves to ranges where the Rust arithmetic does not
overflow, so plain integer arithmetic is the faithful model there.
Rust strings are embedded as `List Char` together with explicit UTF-8 byte
lengths, so that byte-index slicing (which can panic at a non-character
boundary) is modelled faithfully.  A Rust function that can panic is
embedded with an `Option` layer: `none` models the panic.
-/

namespace MusicTypes

deriving instance DecidableEq for Except

/-- Embedding of `div_remainder` (src/lib.rs): truncating division plus a
fix-up so that the remainder lands in `[0, y)` for `y > 0`. -/
def div_remainder (x y : Int) : Int × Int :=
  let q := Int.tdiv x y
  let r := Int.tmod x y
  if 0 ≤ r then (q, r) else (q - 1, r + y)

/-! ## The step algebra: `Interval` and `Pitch` (src/harmony/interval.rs, pitch.rs) -/

/-- Embedding of `struct Interval { chromatic: i16, diatonic: i16 }`. -/
structure Interval where
  chromatic : Int
  diatonic : Int

deriving DecidableEq

/-- Embedding of `struct Pitch { diatonic: i16, chromatic: i16 }`. -/
structure Pitch where
  diatonic : Int
  chromatic : Int

deriving DecidableEq

/-- Embedding of `struct Accidental(i16)`. -/
structure Accidental where
  val : Int

deriving DecidableEq

/-- Embedding of `struct ChromaticPitch(i16)`. -/
structure ChromaticPitch where
  val : Int

deriving DecidableEq

/-- Embedding of `struct PitchName(u8)`: the wrapped byte is stored as the
corresponding character (the source only ever stores `b'A'..=b'G'`). -/
structure PitchName where
  letter : Char

deriving DecidableEq

/-- Embedding of `PartialOrd`/`Ord for Interval`: chromatic first, then
diatonic (src/harmony/interval.rs lines 216-230). -/
def Interval.cmp (a b : Interval) : Ordering :=
  match compare a.chromatic b.chromatic with
  | Ordering.eq => compare a.diatonic b.diatonic
  | ord => ord

/-- The `<=` of `PartialOrd for Interval`, used by Rust's `is_sorted`. -/
def Interval.le (a b : Interval) : Prop :=
  a.chromatic < b.chromatic ∨ (a.chromatic = b.chromatic ∧ a.diatonic ≤ b.diatonic)

instance : DecidableRel Interval.le := fun a b =>
  inferInstanceAs (Decidable
    (a.chromatic < b.chromatic ∨ (a.chromatic = b.chromatic ∧ a.diatonic ≤ b.diatonic)))

/-- Strict version of `Interval.le` (the canonical order without ties). -/
def Interval.lt (a b : Interval) : Prop :=
  a.chromatic < b.chromatic ∨ (a.chromatic = b.chromatic ∧ a.diatonic < b.diatonic)

instance : DecidableRel Interval.lt := fun a b =>
  inferInstanceAs (Decidable
    (a.chromatic < b.chromatic ∨ (a.chromatic = b.chromatic ∧ a.diatonic < b.diatonic)))

/-- Embedding of `Ord for Pitch`: diatonic first, then chromatic
(src/harmony/pitch.rs lines 249-257). -/
def Pitch.cmp (a b : Pitch) : Ordering :=
  match compare a.diatonic b.diatonic with
  | Ordering.eq => compare a.chromatic b.chromatic
  | ord => ord

/-- Embedding of `Pitch::cmp_chromatic` (src/harmony/pitch.rs lines 261-266). -/
def Pitch.cmp_chromatic (a b : Pitch) : Ordering :=
  match compare a.chromatic b.chromatic with
  | Ordering.eq => compare a.diatonic b.diatonic
  | ord => ord

/-- Embedding of `Interval::new(chromatic_steps, diatonic_steps)`. -/
def Interval.new (chromatic_steps diatonic_steps : Int) : Interval :=
  ⟨chromatic_steps, diatonic_steps⟩

/-- Embedding of `Interval::has_perfect` (src/harmony/interval.rs lines
250-256); `rem_euclid` is `Int.emod` for the positive modulus 7. -/
def Interval.has_perfect (diatonic_steps : Int) : Bool :=
  let r := Int.emod diatonic_steps 7
  r = 0 ∨ r = 3 ∨ r = 4

/-- Body of `Interval::to_chromatic_steps_minor` for a non-negative
argument.  The `0 | 3 | 4` arm panics in the source ("cannot have minor
interval quality"); every embedded call site guards on `has_perfect`
first, so that arm is modelled by the junk value 0. -/
def Interval.to_chromatic_steps_minor_body (diatonic_steps : Int) : Int :=
  let p := div_remainder diatonic_steps 7
  p.1 * 12 +
    (if p.2 = 1 then 1
     else if p.2 = 2 then 3
     else if p.2 = 5 then 8
     else if p.2 = 6 then 10
     else 0)

/-- Embedding of `Interval::to_chromatic_steps_minor` (src/harmony/interval.rs
lines 258-274): antisymmetric extension of the non-negative body. -/
def Interval.to_chromatic_steps_minor (diatonic_steps : Int) : Int :=
  if diatonic_steps < 0 then
    -(Interval.to_chromatic_steps_minor_body (-diatonic_steps))
  else
    Interval.to_chromatic_steps_minor_body diatonic_steps

/-- Body of `Interval::to_chromatic_steps_perfect` for a non-negative
argument; the `1 | 2 | 5 | 6` panic arm is modelled by 0 (see
`to_chromatic_steps_minor_body`). -/
def Interval.to_chromatic_steps_perfect_body (diatonic_steps : Int) : Int :=
  let p := div_remainder diatonic_steps 7
  p.1 * 12 +
    (if p.2 = 0 then 0
     else if p.2 = 3 then 5
     else if p.2 = 4 then 7
     else 0)

/-- Embedding of `Interval::to_chromatic_steps_perfect`
(src/harmony/interval.rs lines 276-292). -/
def Interval.to_chromatic_steps_perfect (diatonic_steps : Int) : Int :=
  if diatonic_steps < 0 then
    -(Interval.to_chromatic_steps_perfect_body (-diatonic_steps))
  else
    Interval.to_chromatic_steps_perfect_body diatonic_steps

/-- Embedding of `impl Add for Interval`. -/
def Interval.add (a b : Interval) : Interval :=
  ⟨a.chromatic + b.chromatic, a.diatonic + b.diatonic⟩

/-- Embedding of `impl Neg for Interval`. -/
def Interval.neg (a : Interval) : Interval :=
  ⟨-a.chromatic, -a.diatonic⟩

/-- Embedding of `impl Sub for Interval` (via `complete_group!`: `a + (-b)`). -/
def Interval.sub (a b : Interval) : Interval :=
  a.add b.neg

/-- Embedding of `impl Add<Interval> for Pitch`. -/
def Pitch.addInterval (p : Pitch) (i : Interval) : Pitch :=
  ⟨p.diatonic + i.diatonic, p.chromatic + i.chromatic⟩

/-- Embedding of `impl Sub for Pitch` (pitch difference is an interval). -/
def Pitch.subPitch (a b : Pitch) : Interval :=
  ⟨a.chromatic - b.chromatic, a.diatonic - b.diatonic⟩

/-- Embedding of `impl Rem<ChromaticOctave> for Interval`
(src/harmony/interval.rs lines 525-536). -/
def Interval.remChromaticOctave (i : Interval) : Interval :=
  let p := div_remainder i.chromatic 12
  ⟨p.2, i.diatonic - p.1 * 7⟩

/-- Embedding of `impl Rem<Octave> for Interval`
(src/harmony/interval.rs lines 481-492). -/
def Interval.remOctave (i : Interval) : Interval :=
  let p := div_remainder i.diatonic 7
  ⟨i.chromatic - p.1 * 12, p.2⟩

/-- Embedding of `Interval::UNISON`. -/
def Interval.UNISON : Interval := ⟨0, 0⟩

/-- Embedding of `Interval::OCTAVE`. -/
def Interval.OCTAVE : Interval := ⟨12, 7⟩

/-- Embedding of `Accidental::new` / the tuple constructor. -/
def Accidental.new (chromatic_shift : Int) : Accidental :=
  ⟨chromatic_shift⟩

/-- Embedding of `Accidental::to_utf8` (src/harmony/pitch.rs lines 48-57). -/
def Accidental.to_utf8 (a : Accidental) : Option Char :=
  if a.val = -1 then some '♭'
  else if a.val = 0 then some '♮'
  else if a.val = 1 then some '♯'
  else if a.val = 2 then some (Char.ofNat 0x1d12a)
  else if a.val = -2 then some (Char.ofNat 0x1d12b)
  else none

/-- Embedding of `PitchName::new`: accepts an uppercase letter `A`..`G`. -/
def PitchName.new (c : Char) : Option PitchName :=
  if 'A' ≤ c ∧ c ≤ 'G' then some ⟨c⟩ else none

/-- Embedding of `PitchName::from_diatonic_steps` (src/harmony/pitch.rs
lines 138-150). -/
def PitchName.from_diatonic_steps (diatonic : Int) : PitchName :=
  let pitch := Int.emod diatonic 7
  ⟨if pitch = 0 then 'C'
    else if pitch = 1 then 'D'
    else if pitch = 2 then 'E'
    else if pitch = 3 then 'F'
    else if pitch = 4 then 'G'
    else if pitch = 5 then 'A'
    else 'B'⟩

/-- Embedding of `PitchName::to_diatonic_steps`; the source's
`unreachable!` arm (a byte outside `A`..`G`) is modelled by 0, and is never
produced by the embedded constructors. -/
def PitchName.to_diatonic_steps (n : PitchName) : Int :=
  if n.letter = 'C' then 0
  else if n.letter = 'D' then 1
  else if n.letter = 'E' then 2
  else if n.letter = 'F' then 3
  else if n.letter = 'G' then 4
  else if n.letter = 'A' then 5
  else if n.letter = 'B' then 6
  else 0

/-- Embedding of `PitchName::to_chromatic_steps`; same remark as
`to_diatonic_steps` for the unreachable arm. -/
def PitchName.to_chromatic_steps (n : PitchName) : Int :=
  if n.letter = 'C' then 0
  else if n.letter = 'D' then 2
  else if n.letter = 'E' then 4
  else if n.letter = 'F' then 5
  else if n.letter = 'G' then 7
  else if n.letter = 'A' then 9
  else if n.letter = 'B' then 11
  else 0

/-- Embedding of `Pitch::new(diatonic_steps, chromatic_steps)`. -/
def Pitch.new (diatonic_steps chromatic_steps : Int) : Pitch :=
  ⟨diatonic_steps, chromatic_steps⟩

/-- Embedding of `Pitch::decompose` (src/harmony/pitch.rs lines 291-300). -/
def Pitch.decompose (p : Pitch) : PitchName × Accidental × Int :=
  let q := div_remainder p.diatonic 7
  let diatonic_name := PitchName.from_diatonic_steps q.2
  let chromatic_natural := q.1 * 12 + diatonic_name.to_chromatic_steps
  (diatonic_name, ⟨p.chromatic - chromatic_natural⟩, q.1 + 4)

/-- Embedding of `Pitch::compose` (src/harmony/pitch.rs lines 304-311). -/
def Pitch.compose (name : PitchName) (accidental : Accidental) (octave : Int) : Pitch :=
  let note := name.to_diatonic_steps
  let offset := name.to_chromatic_steps
  ⟨(octave - 4) * 7 + note, (octave - 4) * 12 + offset + accidental.val⟩

/-- Embedding of `Pitch::octave`. -/
def Pitch.octave (p : Pitch) : Int :=
  (div_remainder p.diatonic 7).1 + 4

/-- Embedding of `Pitch::accidental`. -/
def Pitch.accidental (p : Pitch) : Accidental :=
  p.decompose.2.1

/-- Embedding of `Pitch::pitch_name`. -/
def Pitch.pitch_name (p : Pitch) : PitchName :=
  p.decompose.1

/-- Embedding of `Pitch::staff_position`. -/
def Pitch.staff_position (p : Pitch) : Int :=
  p.diatonic

/-- Embedding of `impl From<Pitch> for ChromaticPitch`. -/
def Pitch.to_chromatic (p : Pitch) : ChromaticPitch :=
  ⟨p.chromatic⟩

/-- Embedding of `ChromaticPitch::to_pitch_named` (src/harmony/pitch.rs
lines 408-419), including the source's duplicated `> 6` test: the second
branch (`octave -= 1`) is dead because its condition is identical to the
first one. -/
def ChromaticPitch.to_pitch_named (c : ChromaticPitch) (name : PitchName) : Pitch :=
  let p := div_remainder c.val 12
  let octave :=
    if p.2 - name.to_chromatic_steps > 6 then p.1 + 1
    else if p.2 - name.to_chromatic_steps > 6 then p.1 - 1
    else p.1
  ⟨octave * 7 + name.to_diatonic_steps, c.val⟩

/-! ## Decimal numerals and Rust's integer `FromStr` -/

/-- ASCII digit test (`char::is_ascii_digit`). -/
def isAsciiDigit (c : Char) : Bool :=
  decide ('0' ≤ c ∧ c ≤ '9')

/-- The ASCII digit character for `d < 10`. -/
def digitChar (d : Nat) : Char :=
  Char.ofNat (48 + d)

/-- Decimal rendering of a natural number, most significant digit first
(the digit part of Rust's integer `Display`). -/
def natToChars (n : Nat) : List Char :=
  if n < 10 then [digitChar n]
  else natToChars (n / 10) ++ [digitChar (n % 10)]
decreasing_by
  exact Nat.div_lt_self (by omega) (by omega)

/-- Rust's `Display` for a signed integer: optional `-`, then digits. -/
def intToChars (k : Int) : List Char :=
  if k < 0 then '-' :: natToChars (-k).toNat else natToChars k.toNat

/-- Accumulator pass of decimal parsing: fails on any non-digit. -/
def parseNatDigitsAux : List Char → Nat → Option Nat
  | [], acc => some acc
  | c :: rest, acc =>
    if isAsciiDigit c then parseNatDigitsAux rest (acc * 10 + (c.toNat - 48))
    else none

/-- Parse a non-empty all-digit run as a natural number. -/
def parseNatDigits (l : List Char) : Option Nat :=
  match l with
  | [] => none
  | _ => parseNatDigitsAux l 0

/-- Embedding of `u8::from_str`: optional `+`, digits, value at most 255. -/
def rustParseU8 (l : List Char) : Option Nat :=
  let t := if l.head? = some '+' then l.tail else l
  match parseNatDigits t with
  | some n => if n ≤ 255 then some n else none
  | none => none

/-- Embedding of `i16::from_str`: optional sign, digits, value in the
`i16` range. -/
def rustParseI16 (l : List Char) : Option Int :=
  if l.head? = some '+' then
    (parseNatDigits l.tail).bind fun n =>
      if (n : Int) ≤ 32767 then some (n : Int) else none
  else if l.head? = some '-' then
    (parseNatDigits l.tail).bind fun n =>
      if (n : Int) ≤ 32768 then some (-(n : Int)) else none
  else
    (parseNatDigits l).bind fun n =>
      if (n : Int) ≤ 32767 then some (n : Int) else none

/-! ## Display implementations (src/harmony/pitch/display.rs,
src/harmony/interval/display.rs) -/

/-- Embedding of `Display for Accidental`. -/
def Accidental.fmt (a : Accidental) : List Char :=
  if a.val = 0 then []
  else if a.val = 1 then ['#']
  else if a.val = -1 then ['b']
  else if a.val = 2 then ['+']
  else if a.val = -2 then ['&']
  else if a.val > 0 then '(' :: (natToChars a.val.toNat ++ ['#', ')'])
  else '(' :: (natToChars (-a.val).toNat ++ ['b', ')'])

/-- Embedding of `Display for Pitch`: letter, accidental, octave. -/
def Pitch.fmt (p : Pitch) : List Char :=
  let d := p.decompose
  d.1.letter :: (d.2.1.fmt ++ intToChars d.2.2)

/-- The non-negative-diatonic branch of `Display for Interval`. -/
def Interval.fmt_body (i : Interval) : List Char :=
  let modifier :=
    if Interval.has_perfect i.diatonic then
      let mismatch := i.chromatic - Interval.to_chromatic_steps_perfect i.diatonic
      if mismatch ≤ -2 then '(' :: (intToChars (mismatch - 1) ++ [')'])
      else if mismatch = -1 then ['d']
      else if mismatch = 0 then []
      else if mismatch = 1 then ['a']
      else '(' :: (intToChars (mismatch + 1) ++ [')'])
    else
      let mismatch := i.chromatic - Interval.to_chromatic_steps_minor i.diatonic
      if mismatch ≤ -2 then '(' :: (intToChars (mismatch - 1) ++ [')'])
      else if mismatch = -1 then ['d']
      else if mismatch = 0 then ['m']
      else if mismatch = 1 then ['j']
      else if mismatch = 2 then ['a']
      else '(' :: (intToChars mismatch ++ [')'])
  modifier ++ intToChars (i.diatonic + 1)

/-- Embedding of `Display for Interval` (src/harmony/interval/display.rs):
for a negative diatonic part, a `-` followed by the rendering of the
negated interval (which has a positive diatonic part). -/
def Interval.fmt (i : Interval) : List Char :=
  if i.diatonic < 0 then '-' :: Interval.fmt_body i.neg
  else Interval.fmt_body i

/-! ## Interval parsing (src/harmony/interval/parse.rs) -/

/-- Embedding of `ParseIntervalError`; `String` payloads become `List Char`. -/
inductive ParseIntervalError where
  | invalidNumber (s : List Char)
  | invalidQuality (s : List Char)
  | impossible (number : Int) (quality : Option (List Char))

deriving DecidableEq

/-- The single-letter-quality arm of `FromStr for Interval`. -/
def Interval.parse_quality_char (c : Char) (interval_number diatonic_steps : Int) :
    Except ParseIntervalError Int :=
  if Interval.has_perfect diatonic_steps then
    let perfect_steps := Interval.to_chromatic_steps_perfect diatonic_steps
    if c = 'a' ∨ c = 'A' then Except.ok (perfect_steps + 1)
    else if c = 'j' ∨ c = 'M' then Except.error (.impossible interval_number (some [c]))
    else if c = 'p' ∨ c = 'P' then Except.ok perfect_steps
    else if c = 'm' then Except.error (.impossible interval_number (some [c]))
    else if c = 'd' then Except.ok (perfect_steps - 1)
    else Except.error (.invalidQuality [c])
  else
    let minor_steps := Interval.to_chromatic_steps_minor diatonic_steps
    if c = 'a' ∨ c = 'A' then Except.ok (minor_steps + 2)
    else if c = 'j' ∨ c = 'M' then Except.ok (minor_steps + 1)
    else if c = 'p' ∨ c = 'P' then Except.error (.impossible interval_number (some [c]))
    else if c = 'm' then Except.ok minor_steps
    else if c = 'd' then Except.ok (minor_steps - 1)
    else Except.error (.invalidQuality [c])

/-- The parenthesized-quality arm of `FromStr for Interval`: `middle` is
the text between the parentheses (after an optional leading `+`). -/
def Interval.parse_quality_paren (middle : List Char) (interval_number diatonic_steps : Int) :
    Except ParseIntervalError Int :=
  match rustParseI16 middle with
  | none => Except.error (.invalidQuality middle)
  | some quality =>
    if Interval.has_perfect diatonic_steps then
      let nat_steps := Interval.to_chromatic_steps_perfect diatonic_steps
      if quality ≤ -2 then Except.ok (nat_steps + quality + 1)
      else if quality = 0 then Except.ok nat_steps
      else if 2 ≤ quality then Except.ok (nat_steps + quality - 1)
      else Except.error (.impossible interval_number (some middle))
    else
      let minor_steps := Interval.to_chromatic_steps_minor diatonic_steps
      if quality ≤ -1 then Except.ok (minor_steps + quality + 1)
      else if 1 ≤ quality then Except.ok (minor_steps + quality)
      else Except.error (.impossible interval_number (some middle))

/-- The quality-text dispatch of `FromStr for Interval`: the `match` on
the characters before the digit run.  `full` is the whole input, which
the source's wildcard arms echo in `InvalidQuality`. -/
def Interval.quality_dispatch (pre full : List Char) (interval_number diatonic_steps : Int) :
    Except ParseIntervalError Int :=
  match pre with
  | [] =>
    if Interval.has_perfect diatonic_steps then
      Except.ok (Interval.to_chromatic_steps_perfect diatonic_steps)
    else Except.error (.impossible interval_number none)
  | [c] => Interval.parse_quality_char c interval_number diatonic_steps
  | c :: t =>
    if c = '(' then
      if t.head? = some '+' then
        if t.tail.getLast? = some ')' then
          Interval.parse_quality_paren t.tail.dropLast interval_number diatonic_steps
        else Except.error (.invalidQuality full)
      else
        if t.getLast? = some ')' then
          Interval.parse_quality_paren t.dropLast interval_number diatonic_steps
        else Except.error (.invalidQuality full)
    else Except.error (.invalidQuality full)

/-- The non-negated body of `FromStr for Interval`: digit-run extraction
from the right, then dispatch on the quality text.  `none` models the
`expect` panic when the digit run overflows `i16`. -/
def Interval.from_str_body (l : List Char) : Option (Except ParseIntervalError Interval) :=
  let digits := (l.reverse.takeWhile fun c => isAsciiDigit c).reverse
  if digits.isEmpty then some (Except.error (.invalidNumber []))
  else
    match parseNatDigits digits with
    | none => none
    | some nv =>
      if 32767 < nv then none
      else
        let interval_number : Int := nv
        let diatonic_steps := interval_number - 1
        let pre := l.take (l.length - digits.length)
        match Interval.quality_dispatch pre l interval_number diatonic_steps with
        | Except.error e => some (Except.error e)
        | Except.ok cs => some (Except.ok ⟨cs, diatonic_steps⟩)

/-- Embedding of `FromStr for Interval`: strip leading `-` signs
recursively (negating the result), then run the body. -/
def Interval.from_str : List Char → Option (Except ParseIntervalError Interval)
  | [] => Interval.from_str_body []
  | c :: rest =>
    if c = '-' then (Interval.from_str rest).map fun r => r.map Interval.neg
    else Interval.from_str_body (c :: rest)

/-! ## Byte-level string model (Rust `&str` slicing) -/

/-- Total UTF-8 byte length of a character list (Rust `str::len`). -/
def byteLen (l : List Char) : Nat :=
  (l.map Char.utf8Size).sum

/-- Split a character list at a byte offset (Rust's `&s[..k]` / `&s[k..]`):
`none` when `k` is not at a character boundary or exceeds the length,
which is a panic in Rust. -/
def byteSplit (k : Nat) (l : List Char) : Option (List Char × List Char) :=
  if k = 0 then some ([], l)
  else
    match l with
    | [] => none
    | c :: rest =>
      if c.utf8Size ≤ k then
        (byteSplit (k - c.utf8Size) rest).map fun p => (c :: p.1, p.2)
      else none

/-- Rust `str::char_indices` starting from byte offset `ofs`. -/
def charIndicesFrom (ofs : Nat) : List Char → List (Nat × Char)
  | [] => []
  | c :: rest => (ofs, c) :: charIndicesFrom (ofs + c.utf8Size) rest

/-- Rust `str::char_indices`: characters with their byte offsets. -/
def charIndices (l : List Char) : List (Nat × Char) :=
  charIndicesFrom 0 l

/-! ## Pitch and accidental parsing (src/harmony/pitch/parse.rs) -/

/-- Embedding of `ParsePitchError`; `String` payloads become `List Char`. -/
inductive ParsePitchError where
  | invalidPitchName (s : List Char)
  | invalidAccidental (s : List Char)
  | noOctaveFound
  | invalidOctave (s : List Char)

deriving DecidableEq

/-- Embedding of `FromStr for Accidental` (src/harmony/pitch/parse.rs
lines 33-72).  `none` models a panic: the byte slice `&s[0..s.len()-1]`
in the parenthesized arm can land inside a multi-byte character (and
`s.len()-1` underflows for an empty interior). -/
def Accidental.from_str (s : List Char) : Option (Except ParsePitchError Accidental) :=
  if s = ['#', '#'] ∨ s = ['+'] ∨ s = [Char.ofNat 0x1d12b] then some (Except.ok ⟨2⟩)
  else if s = ['#'] ∨ s = ['♯'] then some (Except.ok ⟨1⟩)
  else if s = ['n'] ∨ s = [] ∨ s = ['♮'] then some (Except.ok ⟨0⟩)
  else if s = ['b'] ∨ s = ['♭'] then some (Except.ok ⟨-1⟩)
  else if s = ['b', 'b'] ∨ s = ['&'] ∨ s = [Char.ofNat 0x1d12a] then some (Except.ok ⟨-2⟩)
  else
    match s with
    | [] => none
    | first :: t =>
      if first = '(' then
        if t.getLast? = some ')' then
          let s2 := t.dropLast
          if byteLen s2 = 0 then none
          else
            match byteSplit (byteLen s2 - 1) s2 with
            | none => none
            | some p =>
              match rustParseU8 p.1 with
              | none => some (Except.error (.invalidAccidental s2))
              | some num =>
                if s2.getLast? = some '#' then some (Except.ok ⟨(num : Int)⟩)
                else if s2.getLast? = some 'b' then some (Except.ok ⟨-(num : Int)⟩)
                else some (Except.error (.invalidAccidental s2))
        else some (Except.error (.invalidAccidental t))
      else
        if t.all fun c => c == first then
          if first = '#' then some (Except.ok ⟨(byteLen s : Int)⟩)
          else if first = 'b' then some (Except.ok ⟨-(byteLen s : Int)⟩)
          else some (Except.error (.invalidAccidental s))
        else some (Except.error (.invalidAccidental s))

/-- Embedding of `FromStr for Pitch` (src/harmony/pitch/parse.rs lines
86-120).  The byte index `octave_index` is one past the byte offset of
the rightmost non-digit character; `none` models the panic when the
subsequent byte slicing of the input is not at a character boundary. -/
def Pitch.from_str (s : List Char) : Option (Except ParsePitchError Pitch) :=
  match (charIndices s).reverse.find? (fun p => !(isAsciiDigit p.2)) with
  | none => some (Except.error .noOctaveFound)
  | some q =>
    let octave_index := q.1 + 1
    match s.get? (octave_index - 1) with
    | none => some (Except.error (.invalidPitchName s))
    | some c =>
      let octave_index := if c = '-' then octave_index - 1 else octave_index
      match byteSplit octave_index s with
      | none => none
      | some parts =>
        match rustParseI16 parts.2 with
        | none => some (Except.error (.invalidOctave parts.2))
        | some octave =>
          match parts.1 with
          | [] => some (Except.error (.invalidPitchName parts.1))
          | n :: accChars =>
            match PitchName.new n with
            | none => some (Except.error (.invalidPitchName (n :: accChars)))
            | some pitch_name =>
              match Accidental.from_str accChars with
              | none => none
              | some (Except.error e) => some (Except.error e)
              | some (Except.ok acc) => some (Except.ok (Pitch.compose pitch_name acc octave))

/-! ## The scale and mode engine (src/harmony/scale.rs) -/

/-- Modelled from the spec: `Interval::cmp_chromatic`, the comparator
passed to `sort_by` in `Scale::new` and `Scale::nth_mode`.  Its
declaration is not among the provided sources; per the spec the canonical
order on intervals compares the chromatic part first and the diatonic
part on ties. -/
def Interval.cmp_chromatic (a b : Interval) : Ordering :=
  match compare a.chromatic b.chromatic with
  | Ordering.eq => compare a.diatonic b.diatonic
  | ord => ord

/-- The sorting relation induced by the `Interval::cmp_chromatic`
comparator, as used by `sort_by`. -/
def Scale.sortRel (a b : Interval) : Prop :=
  Interval.cmp_chromatic a b ≠ Ordering.gt

instance : DecidableRel Scale.sortRel := fun a b =>
  inferInstanceAs (Decidable (Interval.cmp_chromatic a b ≠ Ordering.gt))

/-- Rust's `<[T]>::is_sorted` via `PartialOrd for Interval`: every
adjacent pair is `≤` in the chromatic-first order. -/
def Interval.is_sorted : List Interval → Bool
  | a :: b :: rest => decide (Interval.le a b) && Interval.is_sorted (b :: rest)
  | _ => true

/-- Embedding of `Scale::new` (src/harmony/scale.rs lines 51-60):
octave-reduce, sort when not already sorted, prepend unison when absent.
`none` models the panic of `intervals[0]` on an empty input. -/
def Scale.new (intervals : List Interval) : Option (List Interval) :=
  let reduced := intervals.map Interval.remChromaticOctave
  let sorted :=
    if Interval.is_sorted reduced = true then reduced
    else List.insertionSort Scale.sortRel reduced
  match sorted with
  | [] => none
  | x :: _ => some (if x = Interval.new 0 0 then sorted else Interval.new 0 0 :: sorted)

/-- Embedding of `Scale::is_normal`: sorted and starting with unison. -/
def Scale.is_normal (l : List Interval) : Bool :=
  Interval.is_sorted l && decide (l.head? = some (Interval.new 0 0))

/-- Embedding of `Scale::nth_mode` (src/harmony/scale.rs lines 98-114):
`none` models the two panics (`n % 0` on an empty scale, and the
non-normal-scale check). -/
def Scale.nth_mode (l : List Interval) (n : Nat) : Option (List Interval) :=
  if l.length = 0 then none
  else
    let n := n % l.length
    if Scale.is_normal l = false then none
    else if l.length = 1 then some l
    else
      let interval := l.getD n (Interval.new 0 0)
      some (List.insertionSort Scale.sortRel
        (l.map fun i => (i.sub interval).remChromaticOctave))

/-- The first `n` items of `ScaleIter` (src/harmony/scale.rs lines
143-155): yield `root + intervals[index]`, advancing the root by an
octave when the index wraps.  The `getD` default is never used at the
embedded call sites (the index stays below the length). -/
def Scale.iter_take (intervals : List Interval) : Pitch → Nat → Nat → List Pitch
  | _, _, 0 => []
  | root, index, Nat.succ n =>
    let item := root.addInterval (intervals.getD index Interval.UNISON)
    if intervals.length ≤ index + 1 then
      item :: Scale.iter_take intervals (root.addInterval Interval.OCTAVE) 0 n
    else
      item :: Scale.iter_take intervals root (index + 1) n

/-- Embedding of `Scale::major` (src/harmony/scale/standard_scales.rs). -/
def Scale.major : List Interval :=
  [⟨0, 0⟩, ⟨2, 1⟩, ⟨4, 2⟩, ⟨5, 3⟩, ⟨7, 4⟩, ⟨9, 5⟩, ⟨11, 6⟩]

/-- Embedding of `Scale::minor`. -/
def Scale.minor : List Interval :=
  [⟨0, 0⟩, ⟨2, 1⟩, ⟨3, 2⟩, ⟨5, 3⟩, ⟨7, 4⟩, ⟨8, 5⟩, ⟨10, 6⟩]

/-- Embedding of `Scale::lydian`. -/
def Scale.lydian : List Interval :=
  [⟨0, 0⟩, ⟨2, 1⟩, ⟨4, 2⟩, ⟨6, 3⟩, ⟨7, 4⟩, ⟨9, 5⟩, ⟨11, 6⟩]

/-- Embedding of `Scale::ionian` (an alias of `Scale::major`). -/
def Scale.ionian : List Interval :=
  Scale.major

/-- Embedding of `Scale::mixolydian`. -/
def Scale.mixolydian : List Interval :=
  [⟨0, 0⟩, ⟨2, 1⟩, ⟨4, 2⟩, ⟨5, 3⟩, ⟨7, 4⟩, ⟨9, 5⟩, ⟨10, 6⟩]

/-- Embedding of `Scale::dorian`. -/
def Scale.dorian : List Interval :=
  [⟨0, 0⟩, ⟨2, 1⟩, ⟨3, 2⟩, ⟨5, 3⟩, ⟨7, 4⟩, ⟨9, 5⟩, ⟨10, 6⟩]

/-- Embedding of `Scale::aeolian` (an alias of `Scale::minor`). -/
def Scale.aeolian : List Interval :=
  Scale.minor

/-- Embedding of `Scale::phrygian`. -/
def Scale.phrygian : List Interval :=
  [⟨0, 0⟩, ⟨1, 1⟩, ⟨3, 2⟩, ⟨5, 3⟩, ⟨7, 4⟩, ⟨8, 5⟩, ⟨10, 6⟩]

/-- Embedding of `Scale::locrian`. -/
def Scale.locrian : List Interval :=
  [⟨0, 0⟩, ⟨1, 1⟩, ⟨3, 2⟩, ⟨5, 3⟩, ⟨6, 4⟩, ⟨8, 5⟩, ⟨10, 6⟩]

/-! ## The accidental rendering engine (src/harmony/scale.rs) -/

/-- Embedding of `KeyAccidental`. -/
structure KeyAccidental where
  staffposition : Int
  accidental : Accidental

deriving DecidableEq

/-- Embedding of `KeyAccidental::new`: the staff position is reduced
modulo 7. -/
def KeyAccidental.new (staffposition : Int) (accidental : Accidental) : KeyAccidental :=
  ⟨(div_remainder staffposition 7).2, accidental⟩

/-- Embedding of `ConcreteAccidental`. -/
structure ConcreteAccidental where
  staffposition : Int
  accidental : Accidental

deriving DecidableEq

/-- Embedding of `ConcreteAccidental::new`. -/
def ConcreteAccidental.new (staffposition : Int) (accidental : Accidental) : ConcreteAccidental :=
  ⟨staffposition, accidental⟩

/-- Embedding of `KeySignature::major` (src/harmony/scale.rs lines
204-211): record the staff position and accidental of the first seven
pitches of the major scale walked from the root. -/
def KeySignature.major (pitch : Pitch) : List KeyAccidental :=
  (Scale.iter_take Scale.major pitch 0 7).map fun p =>
    KeyAccidental.new p.staff_position p.accidental

/-- Modelled from the spec: `Accidental::NATURAL`, the natural accidental
(displacement 0).  The constant is referenced by
`get_display_accidental` but its declaration is not among the provided
sources. -/
def Accidental.NATURAL : Accidental := ⟨0⟩

/-- Embedding of `AccidentalCalulator` (name kept as in the source). -/
structure AccidentalCalulator where
  signature : List KeyAccidental
  accidentals : List ConcreteAccidental

deriving DecidableEq

/-- Embedding of `From<KeySignature> for AccidentalCalulator`. -/
def AccidentalCalulator.from_key_signature (key : List KeyAccidental) : AccidentalCalulator :=
  ⟨key, []⟩

/-- Embedding of `AccidentalCalulator::get_display_accidental`
(src/harmony/scale.rs lines 282-306): most-recent transient entry first,
then the key signature (staff position reduced mod 7), then the
non-natural fallback. -/
def AccidentalCalulator.get_display_accidental (self : AccidentalCalulator) (pitch : Pitch) :
    Option Accidental :=
  match self.accidentals.reverse.find? (fun acc => acc.staffposition == pitch.staff_position) with
  | some acc =>
    if acc.accidental ≠ pitch.accidental then some pitch.accidental else none
  | none =>
    match self.signature.find?
        (fun acc => acc.staffposition == Int.emod pitch.staff_position 7) with
    | some acc =>
      if acc.accidental ≠ pitch.accidental then some pitch.accidental else none
    | none =>
      if pitch.accidental ≠ Accidental.NATURAL then some pitch.accidental else none

/-- Embedding of `AccidentalCalulator::push`. -/
def AccidentalCalulator.push (self : AccidentalCalulator) (accidental : ConcreteAccidental) :
    AccidentalCalulator :=
  ⟨self.signature, self.accidentals ++ [accidental]⟩

/-- Embedding of `AccidentalCalulator::get_and_update`: compute the
display accidental and push it on the transient stack when present. -/
def AccidentalCalulator.get_and_update (self : AccidentalCalulator) (pitch : Pitch) :
    Option Accidental × AccidentalCalulator :=
  let opt := self.get_display_accidental pitch
  match opt with
  | some acc => (opt, self.push (ConcreteAccidental.new pitch.staff_position acc))
  | none => (opt, self)

/-- Embedding of `AccidentalCalulator::clear`: empty the transient stack,
keep the signature. -/
def AccidentalCalulator.clear (self : AccidentalCalulator) : AccidentalCalulator :=
  ⟨self.signature, []⟩

/-- The key signature of the doc example in src/harmony/scale.rs lines
222-257: B-flat major built from the root pitch B♭4. -/
def bflat_major_signature : List KeyAccidental :=
  KeySignature.major (Pitch.compose ⟨'B'⟩ (Accidental.new (-1)) 4)

/-- The successive outputs of `get_and_update` in that doc example:
E♭4, A♭4, A♭4, A♭5, then `clear`, then E♭3, E4, E♭4. -/
def bflat_scenario_outputs : List (Option Accidental) :=
  let c0 := AccidentalCalulator.from_key_signature bflat_major_signature
  let s1 := c0.get_and_update (Pitch.compose ⟨'E'⟩ (Accidental.new (-1)) 4)
  let s2 := s1.2.get_and_update (Pitch.compose ⟨'A'⟩ (Accidental.new (-1)) 4)
  let s3 := s2.2.get_and_update (Pitch.compose ⟨'A'⟩ (Accidental.new (-1)) 4)
  let s4 := s3.2.get_and_update (Pitch.compose ⟨'A'⟩ (Accidental.new (-1)) 5)
  let c5 := s4.2.clear
  let s6 := c5.get_and_update (Pitch.compose ⟨'E'⟩ (Accidental.new (-1)) 3)
  let s7 := s6.2.get_and_update (Pitch.compose ⟨'E'⟩ (Accidental.new 0) 4)
  let s8 := s7.2.get_and_update (Pitch.compose ⟨'E'⟩ (Accidental.new (-1)) 4)
  [s1.1, s2.1, s3.1, s4.1, s6.1, s7.1, s8.1]

theorem tmod_neg_left (x y : Int) : Int.tmod (-x) y = - Int.tmod x y := by
  rw [Int.tmod_def, Int.tmod_def, Int.neg_tdiv]
  ring

/-- For a positive denominator, `div_remainder` is Euclidean division. -/
theorem div_remainder_eq (x y : Int) (hy : 0 < y) :
    div_remainder x y = (x / y, x % y) := by
  have hsum : y * Int.tdiv x y + Int.tmod x y = x := Int.tdiv_add_tmod x y
  have hub : Int.tmod x y < y := Int.tmod_lt_of_pos x hy
  have hlb : -y < Int.tmod x y := by
    have h1 : Int.tmod (-x) y = - Int.tmod x y := tmod_neg_left x y
    have h2 := Int.tmod_lt_of_pos (-x) hy
    omega
  unfold div_remainder
  by_cases h : 0 ≤ Int.tmod x y
  · rw [if_pos h]
    have h2 := (Int.ediv_emod_unique (r := Int.tmod x y) (q := Int.tdiv x y) hy).mpr
      ⟨by linarith, h, hub⟩
    rw [← h2.1, ← h2.2]
  · rw [if_neg h]
    have hq : Int.tmod x y + y + y * (Int.tdiv x y - 1) = x := by
      have h3 : y * (Int.tdiv x y - 1) = y * Int.tdiv x y - y := by ring
      omega
    have h2 := (Int.ediv_emod_unique (r := Int.tmod x y + y) (q := Int.tdiv x y - 1) hy).mpr
      ⟨hq, by omega, by omega⟩
    rw [← h2.1, ← h2.2]

/-! ## Decimal numeral lemmas -/

theorem isAsciiDigit_digitChar {d : Nat} (h : d < 10) : isAsciiDigit (digitChar d) = true := by
  interval_cases d <;> decide

theorem digitChar_toNat {d : Nat} (h : d < 10) : (digitChar d).toNat = 48 + d := by
  interval_cases d <;> decide

theorem natToChars_ne_nil (n : Nat) : natToChars n ≠ [] := by
  unfold natToChars
  split <;> simp

theorem natToChars_all_digits (n : Nat) : ∀ c ∈ natToChars n, isAsciiDigit c = true := by
  induction n using Nat.strong_induction_on with
  | _ n ih =>
    unfold natToChars
    split
    · intro c hc
      rw [List.mem_singleton] at hc
      subst hc
      exact isAsciiDigit_digitChar (by omega)
    · intro c hc
      rw [List.mem_append] at hc
      rcases hc with hc | hc
      · exact ih (n / 10) (Nat.div_lt_self (by omega) (by omega)) c hc
      · rw [List.mem_singleton] at hc
        subst hc
        exact isAsciiDigit_digitChar (Nat.mod_lt n (by omega))

theorem parseNatDigitsAux_append (a b : List Char) (acc : Nat) :
    parseNatDigitsAux (a ++ b) acc =
      (parseNatDigitsAux a acc).bind fun m => parseNatDigitsAux b m := by
  induction a generalizing acc with
  | nil => simp [parseNatDigitsAux]
  | cons c t ih =>
    rw [List.cons_append]
    simp only [parseNatDigitsAux]
    by_cases hc : isAsciiDigit c = true
    · simp only [hc, if_true]
      exact ih _
    · simp [hc]

theorem parseNatDigitsAux_natToChars (n : Nat) (acc : Nat) :
    parseNatDigitsAux (natToChars n) acc =
      some (acc * 10 ^ (natToChars n).length + n) := by
  induction n using Nat.strong_induction_on generalizing acc with
  | _ n ih =>
    by_cases h : n < 10
    · unfold natToChars
      rw [if_pos h]
      simp only [parseNatDigitsAux]
      rw [if_pos (isAsciiDigit_digitChar h), digitChar_toNat h]
      simp only [List.length_singleton, pow_one]
      congr 1
      omega
    · unfold natToChars
      rw [if_neg h]
      rw [parseNatDigitsAux_append]
      rw [ih (n / 10) (Nat.div_lt_self (by omega) (by omega)) acc]
      rw [Option.some_bind]
      have hm : n % 10 < 10 := Nat.mod_lt n (by omega)
      simp only [parseNatDigitsAux]
      rw [if_pos (isAsciiDigit_digitChar hm), digitChar_toNat hm]
      rw [List.length_append, List.length_singleton]
      congr 1
      have hpow : 10 ^ ((natToChars (n / 10)).length + 1) =
          10 ^ (natToChars (n / 10)).length * 10 := pow_succ 10 _
      rw [hpow]
      have hdm : 10 * (n / 10) + n % 10 = n := Nat.div_add_mod n 10
      calc (acc * 10 ^ (natToChars (n / 10)).length + n / 10) * 10 + (48 + n % 10 - 48)
          = acc * (10 ^ (natToChars (n / 10)).length * 10) + (10 * (n / 10) + n % 10) := by
            have : 48 + n % 10 - 48 = n % 10 := by omega
            rw [this]
            ring
        _ = acc * (10 ^ (natToChars (n / 10)).length * 10) + n := by rw [hdm]

theorem parseNatDigits_natToChars (n : Nat) : parseNatDigits (natToChars n) = some n := by
  have haux := parseNatDigitsAux_natToChars n 0
  cases h : natToChars n with
  | nil => exact absurd h (natToChars_ne_nil n)
  | cons c t =>
    rw [h] at haux
    unfold parseNatDigits
    simpa using haux

theorem natToChars_head_not_sign (n : Nat) :
    (natToChars n).head? ≠ some '+' ∧ (natToChars n).head? ≠ some '-' := by
  cases h : natToChars n with
  | nil => simp
  | cons c t =>
    have hc : isAsciiDigit c = true := by
      apply natToChars_all_digits n
      rw [h]
      exact List.mem_cons_self c t
    constructor <;> intro hh <;> rw [List.head?_cons, Option.some_inj] at hh <;>
      subst hh <;> simp [isAsciiDigit] at hc

theorem rustParseI16_natToChars {n : Nat} (h : n ≤ 32767) :
    rustParseI16 (natToChars n) = some (n : Int) := by
  unfold rustParseI16
  rw [if_neg (natToChars_head_not_sign n).1, if_neg (natToChars_head_not_sign n).2]
  rw [parseNatDigits_natToChars, Option.some_bind]
  rw [if_pos (by exact_mod_cast h)]

theorem intToChars_ne_nil (k : Int) : intToChars k ≠ [] := by
  unfold intToChars
  split
  · simp
  · exact natToChars_ne_nil _

theorem rustParseI16_intToChars {k : Int} (h1 : -32768 ≤ k) (h2 : k ≤ 32767) :
    rustParseI16 (intToChars k) = some k := by
  unfold intToChars
  by_cases hk : k < 0
  · rw [if_pos hk]
    unfold rustParseI16
    rw [List.head?_cons]
    rw [if_neg (by simp), if_pos rfl]
    rw [List.tail_cons, parseNatDigits_natToChars, Option.some_bind]
    have hle : ((-k).toNat : Int) ≤ 32768 := by
      rw [Int.toNat_of_nonneg (by omega)]
      omega
    rw [if_pos hle]
    congr 1
    rw [Int.toNat_of_nonneg (by omega)]
    omega
  · rw [if_neg hk]
    rw [rustParseI16_natToChars (by omega)]
    congr 1
    exact Int.toNat_of_nonneg (by omega)

theorem rustParseU8_natToChars {n : Nat} (h : n ≤ 255) :
    rustParseU8 (natToChars n) = some n := by
  unfold rustParseU8
  dsimp only []
  rw [if_neg (natToChars_head_not_sign n).1]
  rw [parseNatDigits_natToChars]
  simp [h]

/-! ## Digit-run extraction lemmas -/

theorem takeWhile_digits_reverse (pre digs : List Char)
    (hdigs : ∀ c ∈ digs, isAsciiDigit c = true)
    (hpre : pre = [] ∨ ∃ c, pre.getLast? = some c ∧ isAsciiDigit c = false) :
    ((pre ++ digs).reverse.takeWhile fun c => isAsciiDigit c).reverse = digs := by
  rw [List.reverse_append]
  have h1 : List.takeWhile (fun c => isAsciiDigit c) (digs.reverse ++ pre.reverse) =
      digs.reverse ++ List.takeWhile (fun c => isAsciiDigit c) pre.reverse := by
    rw [List.takeWhile_append]
    rw [if_pos]
    rw [List.takeWhile_eq_self_iff.mpr]
    intro c hc
    exact hdigs c (List.mem_reverse.mp hc)
  rw [h1]
  have h2 : List.takeWhile (fun c => isAsciiDigit c) pre.reverse = [] := by
    rcases hpre with rfl | ⟨c, hc, hcd⟩
    · simp
    · have hh : pre.reverse.head? = some c := by
        rw [List.head?_reverse]
        exact hc
      cases hrev : pre.reverse with
      | nil => simp
      | cons d t =>
        rw [hrev] at hh
        rw [List.head?_cons, Option.some_inj] at hh
        subst hh
        rw [List.takeWhile_cons, if_neg (by simp [hcd])]
  rw [h2, List.append_nil, List.reverse_reverse]

theorem take_sub_length (pre digs : List Char) :
    (pre ++ digs).take ((pre ++ digs).length - digs.length) = pre := by
  rw [List.length_append]
  have h : pre.length + digs.length - digs.length = pre.length := by omega
  rw [h, List.take_left]

/-! ## Interval parser routing lemmas -/

theorem Interval.from_str_body_append (pre : List Char) (num : Nat)
    (hbound : num ≤ 32767)
    (hpre : pre = [] ∨ ∃ c, pre.getLast? = some c ∧ isAsciiDigit c = false) :
    Interval.from_str_body (pre ++ natToChars num) =
      (match Interval.quality_dispatch pre (pre ++ natToChars num) (num : Int) ((num : Int) - 1) with
       | Except.error e => some (Except.error e)
       | Except.ok cs => some (Except.ok ⟨cs, (num : Int) - 1⟩)) := by
  unfold Interval.from_str_body
  dsimp only []
  rw [takeWhile_digits_reverse pre (natToChars num) (natToChars_all_digits num) hpre]
  rw [if_neg (by simp [List.isEmpty_iff, natToChars_ne_nil num])]
  rw [parseNatDigits_natToChars]
  dsimp only []
  rw [if_neg (by omega)]
  rw [take_sub_length pre (natToChars num)]

theorem Interval.from_str_empty_quality (num : Nat) (hb : num ≤ 32767) :
    Interval.from_str (natToChars num) =
      (if Interval.has_perfect ((num : Int) - 1) then
        some (Except.ok ⟨Interval.to_chromatic_steps_perfect ((num : Int) - 1), (num : Int) - 1⟩)
      else some (Except.error (.impossible (num : Int) none))) := by
  obtain ⟨c0, t0, h0⟩ := List.exists_cons_of_ne_nil (natToChars_ne_nil num)
  have hc0 : isAsciiDigit c0 = true := by
    apply natToChars_all_digits num
    rw [h0]
    exact List.mem_cons_self c0 t0
  have hc0m : c0 ≠ '-' := by
    intro hh
    subst hh
    simp [isAsciiDigit] at hc0
  rw [h0]
  simp only [Interval.from_str]
  rw [if_neg hc0m, ← h0]
  rw [show natToChars num = [] ++ natToChars num from (List.nil_append _).symm]
  rw [Interval.from_str_body_append [] num hb (Or.inl rfl)]
  simp only [Interval.quality_dispatch]
  by_cases hp : Interval.has_perfect ((num : Int) - 1)
  · rw [if_pos hp]
    rw [if_pos hp]
  · rw [if_neg hp]
    rw [if_neg hp]

theorem Interval.from_str_letter_quality (ch : Char) (num : Nat)
    (hch1 : ch ≠ '-') (hch2 : isAsciiDigit ch = false) (hb : num ≤ 32767) :
    Interval.from_str (ch :: natToChars num) =
      (match Interval.parse_quality_char ch (num : Int) ((num : Int) - 1) with
       | Except.error e => some (Except.error e)
       | Except.ok cs => some (Except.ok ⟨cs, (num : Int) - 1⟩)) := by
  simp only [Interval.from_str]
  rw [if_neg hch1]
  rw [show ch :: natToChars num = [ch] ++ natToChars num from rfl]
  rw [Interval.from_str_body_append [ch] num hb (Or.inr ⟨ch, rfl, hch2⟩)]
  simp only [Interval.quality_dispatch]

theorem Interval.from_str_paren_quality (m0 : Char) (mrest : List Char)
    (hm0 : m0 ≠ '+') (num : Nat) (hb : num ≤ 32767) :
    Interval.from_str (('(' :: ((m0 :: mrest) ++ [')'])) ++ natToChars num) =
      (match Interval.parse_quality_paren (m0 :: mrest) (num : Int) ((num : Int) - 1) with
       | Except.error e => some (Except.error e)
       | Except.ok cs => some (Except.ok ⟨cs, (num : Int) - 1⟩)) := by
  rw [List.cons_append]
  simp only [Interval.from_str]
  rw [if_neg (by decide)]
  rw [← List.cons_append]
  have hlast : ('(' :: ((m0 :: mrest) ++ [')'])).getLast? = some ')' := by
    rw [show '(' :: ((m0 :: mrest) ++ [')']) = ('(' :: (m0 :: mrest)) ++ [')'] from by simp]
    exact List.getLast?_concat _
  rw [Interval.from_str_body_append ('(' :: ((m0 :: mrest) ++ [')'])) num hb
    (Or.inr ⟨')', hlast, by decide⟩)]
  rw [show (m0 :: mrest) ++ [')'] = m0 :: (mrest ++ [')']) from List.cons_append m0 mrest [')']]
  dsimp only [Interval.quality_dispatch]
  rw [if_pos rfl, List.head?_cons]
  rw [if_neg (by simp [hm0])]
  rw [show m0 :: (mrest ++ [')']) = (m0 :: mrest) ++ [')'] from by simp]
  rw [List.getLast?_concat, if_pos rfl, List.dropLast_concat]

/-! ## Bounds for the natural chromatic step helpers -/

theorem Interval.to_chromatic_steps_perfect_bounds (d : Int) (h0 : 0 ≤ d) (h1 : d ≤ 2400) :
    0 ≤ Interval.to_chromatic_steps_perfect d ∧
      Interval.to_chromatic_steps_perfect d ≤ 4200 := by
  unfold Interval.to_chromatic_steps_perfect
  rw [if_neg (by omega)]
  unfold Interval.to_chromatic_steps_perfect_body
  rw [div_remainder_eq _ _ (by norm_num)]
  dsimp only []
  have hdm := Int.ediv_add_emod d 7
  have hr0 := Int.emod_nonneg d (show (7 : Int) ≠ 0 by norm_num)
  have hr1 := Int.emod_lt_of_pos d (show (0 : Int) < 7 by norm_num)
  have hq0 : 0 ≤ d / 7 := Int.ediv_nonneg h0 (by norm_num)
  constructor <;> split_ifs <;> omega

theorem Interval.to_chromatic_steps_minor_bounds (d : Int) (h0 : 0 ≤ d) (h1 : d ≤ 2400) :
    0 ≤ Interval.to_chromatic_steps_minor d ∧
      Interval.to_chromatic_steps_minor d ≤ 4200 := by
  unfold Interval.to_chromatic_steps_minor
  rw [if_neg (by omega)]
  unfold Interval.to_chromatic_steps_minor_body
  rw [div_remainder_eq _ _ (by norm_num)]
  dsimp only []
  have hdm := Int.ediv_add_emod d 7
  have hr0 := Int.emod_nonneg d (show (7 : Int) ≠ 0 by norm_num)
  have hr1 := Int.emod_lt_of_pos d (show (0 : Int) < 7 by norm_num)
  have hq0 : 0 ≤ d / 7 := Int.ediv_nonneg h0 (by norm_num)
  constructor <;> split_ifs <;> omega

/-! ## The interval display round trip -/

theorem Interval.from_str_fmt_body (c d : Int)
    (hd0 : 0 ≤ d) (hd1 : d ≤ 2000) (hc0 : -24000 ≤ c) (hc1 : c ≤ 24000) :
    Interval.from_str (Interval.fmt_body ⟨c, d⟩) = some (Except.ok ⟨c, d⟩) := by
  have hnum : intToChars (d + 1) = natToChars (d + 1).toNat := by
    unfold intToChars
    rw [if_neg (by omega)]
  have hnumval : (((d + 1).toNat : Nat) : Int) = d + 1 := Int.toNat_of_nonneg (by omega)
  have hnumb : (d + 1).toNat ≤ 32767 := by omega
  unfold Interval.fmt_body
  dsimp only []
  by_cases hp : Interval.has_perfect d
  · rw [if_pos hp]
    have hP := Interval.to_chromatic_steps_perfect_bounds d hd0 (by omega)
    by_cases h2 : c - Interval.to_chromatic_steps_perfect d ≤ -2
    · rw [if_pos h2]
      have hit : intToChars (c - Interval.to_chromatic_steps_perfect d - 1) =
          '-' :: natToChars (-(c - Interval.to_chromatic_steps_perfect d - 1)).toNat := by
        unfold intToChars
        rw [if_pos (by omega)]
      rw [hnum, hit]
      rw [Interval.from_str_paren_quality '-' _ (by decide) _ hnumb]
      unfold Interval.parse_quality_paren
      rw [← hit, rustParseI16_intToChars (by omega) (by omega)]
      rw [hnumval, show d + 1 - 1 = d from by ring]
      dsimp only []
      rw [if_pos hp]
      rw [if_pos (by omega)]
      dsimp only []
      rw [show Interval.to_chromatic_steps_perfect d +
        (c - Interval.to_chromatic_steps_perfect d - 1) + 1 = c from by ring]
    · rw [if_neg h2]
      by_cases h3 : c - Interval.to_chromatic_steps_perfect d = -1
      · rw [if_pos h3]
        rw [hnum, List.singleton_append]
        rw [Interval.from_str_letter_quality 'd' _ (by decide) (by decide) hnumb]
        rw [hnumval, show d + 1 - 1 = d from by ring]
        unfold Interval.parse_quality_char
        rw [if_pos hp]
        dsimp only []
        rw [if_neg (by decide), if_neg (by decide), if_neg (by decide), if_neg (by decide),
          if_pos rfl]
        dsimp only []
        rw [show Interval.to_chromatic_steps_perfect d - 1 = c from by omega]
      · rw [if_neg h3]
        by_cases h4 : c - Interval.to_chromatic_steps_perfect d = 0
        · rw [if_pos h4]
          rw [hnum, List.nil_append]
          rw [Interval.from_str_empty_quality _ hnumb]
          rw [hnumval, show d + 1 - 1 = d from by ring]
          rw [if_pos hp]
          rw [show Interval.to_chromatic_steps_perfect d = c from by omega]
        · rw [if_neg h4]
          by_cases h5 : c - Interval.to_chromatic_steps_perfect d = 1
          · rw [if_pos h5]
            rw [hnum, List.singleton_append]
            rw [Interval.from_str_letter_quality 'a' _ (by decide) (by decide) hnumb]
            rw [hnumval, show d + 1 - 1 = d from by ring]
            unfold Interval.parse_quality_char
            rw [if_pos hp]
            dsimp only []
            rw [if_pos (Or.inl rfl)]
            dsimp only []
            rw [show Interval.to_chromatic_steps_perfect d + 1 = c from by omega]
          · rw [if_neg h5]
            have hq3 : 2 ≤ c - Interval.to_chromatic_steps_perfect d := by omega
            have hit : intToChars (c - Interval.to_chromatic_steps_perfect d + 1) =
                natToChars (c - Interval.to_chromatic_steps_perfect d + 1).toNat := by
              unfold intToChars
              rw [if_neg (by omega)]
            obtain ⟨m0, mr, hm⟩ := List.exists_cons_of_ne_nil
              (natToChars_ne_nil (c - Interval.to_chromatic_steps_perfect d + 1).toNat)
            have hm0 : m0 ≠ '+' := by
              have hdig : isAsciiDigit m0 = true := by
                apply natToChars_all_digits
                rw [hm]
                exact List.mem_cons_self m0 mr
              intro hh
              subst hh
              simp [isAsciiDigit] at hdig
            rw [hnum, hit, hm]
            rw [Interval.from_str_paren_quality m0 mr hm0 _ hnumb]
            unfold Interval.parse_quality_paren
            rw [← hm, ← hit, rustParseI16_intToChars (by omega) (by omega)]
            rw [hnumval, show d + 1 - 1 = d from by ring]
            dsimp only []
            rw [if_pos hp]
            rw [if_neg (by omega), if_neg (by omega), if_pos (by omega)]
            dsimp only []
            rw [show Interval.to_chromatic_steps_perfect d +
              (c - Interval.to_chromatic_steps_perfect d + 1) - 1 = c from by ring]
  · rw [if_neg hp]
    have hM := Interval.to_chromatic_steps_minor_bounds d hd0 (by omega)
    by_cases h2 : c - Interval.to_chromatic_steps_minor d ≤ -2
    · rw [if_pos h2]
      have hit : intToChars (c - Interval.to_chromatic_steps_minor d - 1) =
          '-' :: natToChars (-(c - Interval.to_chromatic_steps_minor d - 1)).toNat := by
        unfold intToChars
        rw [if_pos (by omega)]
      rw [hnum, hit]
      rw [Interval.from_str_paren_quality '-' _ (by decide) _ hnumb]
      unfold Interval.parse_quality_paren
      rw [← hit, rustParseI16_intToChars (by omega) (by omega)]
      rw [hnumval, show d + 1 - 1 = d from by ring]
      dsimp only []
      rw [if_neg hp]
      rw [if_pos (by omega)]
      dsimp only []
      rw [show Interval.to_chromatic_steps_minor d +
        (c - Interval.to_chromatic_steps_minor d - 1) + 1 = c from by ring]
    · rw [if_neg h2]
      by_cases h3 : c - Interval.to_chromatic_steps_minor d = -1
      · rw [if_pos h3]
        rw [hnum, List.singleton_append]
        rw [Interval.from_str_letter_quality 'd' _ (by decide) (by decide) hnumb]
        rw [hnumval, show d + 1 - 1 = d from by ring]
        unfold Interval.parse_quality_char
        rw [if_neg hp]
        dsimp only []
        rw [if_neg (by decide), if_neg (by decide), if_neg (by decide), if_neg (by decide),
          if_pos rfl]
        dsimp only []
        rw [show Interval.to_chromatic_steps_minor d - 1 = c from by omega]
      · rw [if_neg h3]
        by_cases h4 : c - Interval.to_chromatic_steps_minor d = 0
        · rw [if_pos h4]
          rw [hnum, List.singleton_append]
          rw [Interval.from_str_letter_quality 'm' _ (by decide) (by decide) hnumb]
          rw [hnumval, show d + 1 - 1 = d from by ring]
          unfold Interval.parse_quality_char
          rw [if_neg hp]
          dsimp only []
          rw [if_neg (by decide), if_neg (by decide), if_neg (by decide), if_pos rfl]
          dsimp only []
          rw [show Interval.to_chromatic_steps_minor d = c from by omega]
        · rw [if_neg h4]
          by_cases h5 : c - Interval.to_chromatic_steps_minor d = 1
          · rw [if_pos h5]
            rw [hnum, List.singleton_append]
            rw [Interval.from_str_letter_quality 'j' _ (by decide) (by decide) hnumb]
            rw [hnumval, show d + 1 - 1 = d from by ring]
            unfold Interval.parse_quality_char
            rw [if_neg hp]
            dsimp only []
            rw [if_neg (by decide), if_pos (Or.inl rfl)]
            dsimp only []
            rw [show Interval.to_chromatic_steps_minor d + 1 = c from by omega]
          · rw [if_neg h5]
            by_cases h6 : c - Interval.to_chromatic_steps_minor d = 2
            · rw [if_pos h6]
              rw [hnum, List.singleton_append]
              rw [Interval.from_str_letter_quality 'a' _ (by decide) (by decide) hnumb]
              rw [hnumval, show d + 1 - 1 = d from by ring]
              unfold Interval.parse_quality_char
              rw [if_neg hp]
              dsimp only []
              rw [if_pos (Or.inl rfl)]
              dsimp only []
              rw [show Interval.to_chromatic_steps_minor d + 2 = c from by omega]
            · rw [if_neg h6]
              have hq3 : 3 ≤ c - Interval.to_chromatic_steps_minor d := by omega
              have hit : intToChars (c - Interval.to_chromatic_steps_minor d) =
                  natToChars (c - Interval.to_chromatic_steps_minor d).toNat := by
                unfold intToChars
                rw [if_neg (by omega)]
              obtain ⟨m0, mr, hm⟩ := List.exists_cons_of_ne_nil
                (natToChars_ne_nil (c - Interval.to_chromatic_steps_minor d).toNat)
              have hm0 : m0 ≠ '+' := by
                have hdig : isAsciiDigit m0 = true := by
                  apply natToChars_all_digits
                  rw [hm]
                  exact List.mem_cons_self m0 mr
                intro hh
                subst hh
                simp [isAsciiDigit] at hdig
              rw [hnum, hit, hm]
              rw [Interval.from_str_paren_quality m0 mr hm0 _ hnumb]
              unfold Interval.parse_quality_paren
              rw [← hm, ← hit, rustParseI16_intToChars (by omega) (by omega)]
              rw [hnumval, show d + 1 - 1 = d from by ring]
              dsimp only []
              rw [if_neg hp]
              rw [if_neg (by omega), if_pos (by omega)]
              dsimp only []
              rw [show Interval.to_chromatic_steps_minor d +
                (c - Interval.to_chromatic_steps_minor d) = c from by ring]

/-! ## ASCII and byte-model lemmas -/

theorem utf8Size_ascii {c : Char} (h : c.toNat < 128) : c.utf8Size = 1 := by
  unfold Char.utf8Size
  rw [if_pos]
  rw [UInt32.le_def, BitVec.le_def]
  exact Nat.lt_succ_iff.mp h

theorem isAsciiDigit_toNat {c : Char} (h : isAsciiDigit c = true) :
    48 ≤ c.toNat ∧ c.toNat ≤ 57 := by
  unfold isAsciiDigit at h
  rw [decide_eq_true_iff] at h
  obtain ⟨h1, h2⟩ := h
  rw [Char.le_def, UInt32.le_def, BitVec.le_def] at h1 h2
  exact ⟨h1, h2⟩

theorem byteLen_ascii (l : List Char) (h : ∀ c ∈ l, c.toNat < 128) :
    byteLen l = l.length := by
  induction l with
  | nil => rfl
  | cons c rest ih =>
    unfold byteLen
    rw [List.map_cons, List.sum_cons]
    rw [utf8Size_ascii (h c (List.mem_cons_self c rest))]
    have := ih fun x hx => h x (List.mem_cons_of_mem c hx)
    unfold byteLen at this
    rw [this, List.length_cons]
    omega

theorem byteSplit_ascii (l : List Char) (k : Nat)
    (h : ∀ c ∈ l, c.toNat < 128) (hk : k ≤ l.length) :
    byteSplit k l = some (l.take k, l.drop k) := by
  induction l generalizing k with
  | nil =>
    rw [List.length_nil, Nat.le_zero] at hk
    subst hk
    rfl
  | cons c rest ih =>
    cases k with
    | zero => rfl
    | succ k2 =>
      unfold byteSplit
      rw [if_neg (by omega)]
      dsimp only []
      rw [utf8Size_ascii (h c (List.mem_cons_self c rest))]
      rw [if_pos (by omega)]
      rw [show k2 + 1 - 1 = k2 from rfl]
      rw [ih k2 (fun x hx => h x (List.mem_cons_of_mem c hx)) (by simpa using hk)]
      rfl

theorem charIndicesFrom_append (ofs : Nat) (a b : List Char) :
    charIndicesFrom ofs (a ++ b) =
      charIndicesFrom ofs a ++ charIndicesFrom (ofs + byteLen a) b := by
  induction a generalizing ofs with
  | nil => simp [charIndicesFrom, byteLen]
  | cons c rest ih =>
    rw [List.cons_append]
    rw [show charIndicesFrom ofs (c :: (rest ++ b)) =
      (ofs, c) :: charIndicesFrom (ofs + c.utf8Size) (rest ++ b) from rfl]
    rw [show charIndicesFrom ofs (c :: rest) =
      (ofs, c) :: charIndicesFrom (ofs + c.utf8Size) rest from rfl]
    rw [ih (ofs + c.utf8Size)]
    rw [List.cons_append]
    have : ofs + c.utf8Size + byteLen rest = ofs + byteLen (c :: rest) := by
      unfold byteLen
      rw [List.map_cons, List.sum_cons]
      omega
    rw [this]

theorem mem_charIndicesFrom {ofs : Nat} {l : List Char} {p : Nat × Char}
    (h : p ∈ charIndicesFrom ofs l) : p.2 ∈ l := by
  induction l generalizing ofs with
  | nil => simp [charIndicesFrom] at h
  | cons c rest ih =>
    unfold charIndicesFrom at h
    rcases List.mem_cons.mp h with heq | htail
    · rw [heq]
      exact List.mem_cons_self c rest
    · exact List.mem_cons_of_mem c (ih htail)

theorem find?_rev_digits (ofs : Nat) (digs : List Char)
    (h : ∀ x ∈ digs, isAsciiDigit x = true) :
    (charIndicesFrom ofs digs).reverse.find? (fun p => !(isAsciiDigit p.2)) = none := by
  rw [List.find?_eq_none]
  intro x hx
  have hmem : x.2 ∈ digs := mem_charIndicesFrom (List.mem_reverse.mp hx)
  simp [h x.2 hmem]

theorem find_octave_index (pre digs : List Char) (c : Char)
    (hdigs : ∀ x ∈ digs, isAsciiDigit x = true) (hc : isAsciiDigit c = false) :
    (charIndices ((pre ++ [c]) ++ digs)).reverse.find? (fun p => !(isAsciiDigit p.2)) =
      some (byteLen pre, c) := by
  unfold charIndices
  rw [charIndicesFrom_append, charIndicesFrom_append]
  rw [List.reverse_append, List.reverse_append]
  rw [List.find?_append]
  rw [find?_rev_digits _ _ hdigs, Option.none_or]
  rw [List.find?_append]
  rw [show charIndicesFrom (0 + byteLen pre) [c] = [(byteLen pre, c)] from by
    unfold charIndicesFrom charIndicesFrom
    rw [Nat.zero_add]]
  rw [List.reverse_singleton, List.find?_cons]
  simp [hc]

/-! ## Pitch decomposition and parser routing -/

theorem PitchName.from_diatonic_cases (x : Int) :
    (PitchName.from_diatonic_steps x).letter = 'C' ∨
    (PitchName.from_diatonic_steps x).letter = 'D' ∨
    (PitchName.from_diatonic_steps x).letter = 'E' ∨
    (PitchName.from_diatonic_steps x).letter = 'F' ∨
    (PitchName.from_diatonic_steps x).letter = 'G' ∨
    (PitchName.from_diatonic_steps x).letter = 'A' ∨
    (PitchName.from_diatonic_steps x).letter = 'B' := by
  unfold PitchName.from_diatonic_steps
  dsimp only []
  split_ifs <;> simp

theorem Pitch.compose_decompose (dd cc : Int) :
    Pitch.compose (Pitch.decompose ⟨dd, cc⟩).1 (Pitch.decompose ⟨dd, cc⟩).2.1
      (Pitch.decompose ⟨dd, cc⟩).2.2 = ⟨dd, cc⟩ := by
  unfold Pitch.decompose Pitch.compose
  rw [div_remainder_eq _ _ (by norm_num)]
  dsimp only []
  have hdm := Int.ediv_add_emod dd 7
  have hr0 := Int.emod_nonneg dd (show (7 : Int) ≠ 0 by norm_num)
  have hr1 := Int.emod_lt_of_pos dd (show (0 : Int) < 7 by norm_num)
  have hround : (PitchName.from_diatonic_steps (dd % 7)).to_diatonic_steps = dd % 7 := by
    have h7 : dd % 7 = 0 ∨ dd % 7 = 1 ∨ dd % 7 = 2 ∨ dd % 7 = 3 ∨ dd % 7 = 4 ∨
        dd % 7 = 5 ∨ dd % 7 = 6 := by omega
    rcases h7 with h | h | h | h | h | h | h <;> rw [h] <;> decide
  rw [Pitch.mk.injEq]
  constructor
  · rw [hround]
    ring_nf
    omega
  · ring

theorem Pitch.from_str_structured (letter : Char) (rest : List Char) (oct : Int)
    (hascii : ∀ x ∈ letter :: rest, x.toNat < 128)
    (hnd : ∃ ce, (letter :: rest).getLast? = some ce ∧ isAsciiDigit ce = false ∧ ce ≠ '-')
    (hoct1 : -32768 ≤ oct) (hoct2 : oct ≤ 32767) :
    Pitch.from_str ((letter :: rest) ++ intToChars oct) =
      (match PitchName.new letter with
       | none => some (Except.error (.invalidPitchName (letter :: rest)))
       | some pn =>
         match Accidental.from_str rest with
         | none => none
         | some (Except.error e) => some (Except.error e)
         | some (Except.ok acc) => some (Except.ok (Pitch.compose pn acc oct))) := by
  obtain ⟨ce, hce, hcend, hcem⟩ := hnd
  have hbl : byteLen (letter :: rest) = (letter :: rest).length :=
    byteLen_ascii _ hascii
  by_cases hoct : oct < 0
  · -- negative octave: the display is a minus sign followed by digits
    have hoc : intToChars oct = '-' :: natToChars (-oct).toNat := by
      unfold intToChars
      rw [if_pos hoct]
    rw [hoc]
    rw [show (letter :: rest) ++ '-' :: natToChars (-oct).toNat =
      ((letter :: rest) ++ ['-']) ++ natToChars (-oct).toNat from by simp]
    unfold Pitch.from_str
    rw [find_octave_index (letter :: rest) _ '-' (natToChars_all_digits _) (by decide)]
    dsimp only []
    have hget : (((letter :: rest) ++ ['-']) ++ natToChars (-oct).toNat).get?
        (byteLen (letter :: rest) + 1 - 1) = some '-' := by
      rw [List.get?_eq_getElem?]
      rw [show byteLen (letter :: rest) + 1 - 1 = byteLen (letter :: rest) from rfl, hbl]
      rw [List.getElem?_append]
      rw [if_pos (by simp)]
      rw [List.getElem?_append_right (by simp)]
      simp
    rw [hget]
    dsimp only []
    rw [if_pos rfl]
    have hsplit : byteSplit (byteLen (letter :: rest) + 1 - 1)
        (((letter :: rest) ++ ['-']) ++ natToChars (-oct).toNat) =
        some (letter :: rest, '-' :: natToChars (-oct).toNat) := by
      rw [show ((letter :: rest) ++ ['-']) ++ natToChars (-oct).toNat =
        (letter :: rest) ++ ('-' :: natToChars (-oct).toNat) from by simp]
      rw [show byteLen (letter :: rest) + 1 - 1 = byteLen (letter :: rest) from rfl, hbl]
      rw [byteSplit_ascii]
      · rw [List.take_left, List.drop_left]
      · intro x hx
        rcases List.mem_append.mp hx with hx | hx
        · exact hascii x hx
        · rcases List.mem_cons.mp hx with hx | hx
          · rw [hx]
            decide
          · have := isAsciiDigit_toNat (natToChars_all_digits _ x hx)
            omega
      · simp
    rw [hsplit]
    dsimp only []
    rw [show ('-' :: natToChars (-oct).toNat) = intToChars oct from hoc.symm]
    rw [rustParseI16_intToChars hoct1 hoct2]
  · -- non-negative octave: plain digits
    have hoc : intToChars oct = natToChars oct.toNat := by
      unfold intToChars
      rw [if_neg hoct]
    rw [hoc]
    have hdecomp := List.dropLast_append_getLast (l := letter :: rest) (by simp)
    have hcegl : (letter :: rest).getLast (by simp) = ce := by
      rw [List.getLast?_eq_getLast _ (by simp), Option.some_inj] at hce
      exact hce
    rw [hcegl] at hdecomp
    unfold Pitch.from_str
    rw [show (letter :: rest) ++ natToChars oct.toNat =
      ((letter :: rest).dropLast ++ [ce]) ++ natToChars oct.toNat from by rw [hdecomp]]
    rw [find_octave_index _ _ ce (natToChars_all_digits _) hcend]
    dsimp only []
    have hblp : byteLen (letter :: rest).dropLast = (letter :: rest).dropLast.length := by
      apply byteLen_ascii
      intro x hx
      exact hascii x (List.dropLast_subset _ hx)
    have hget : (((letter :: rest).dropLast ++ [ce]) ++ natToChars oct.toNat).get?
        (byteLen (letter :: rest).dropLast + 1 - 1) = some ce := by
      rw [List.get?_eq_getElem?]
      rw [show byteLen (letter :: rest).dropLast + 1 - 1 =
        byteLen (letter :: rest).dropLast from rfl, hblp]
      rw [List.getElem?_append]
      rw [if_pos (by simp)]
      rw [List.getElem?_append_right (by simp)]
      simp
    rw [hget]
    dsimp only []
    rw [if_neg hcem]
    have hsplit : byteSplit (byteLen (letter :: rest).dropLast + 1)
        (((letter :: rest).dropLast ++ [ce]) ++ natToChars oct.toNat) =
        some ((letter :: rest).dropLast ++ [ce], natToChars oct.toNat) := by
      have hlen : byteLen (letter :: rest).dropLast + 1 =
          ((letter :: rest).dropLast ++ [ce]).length := by
        rw [List.length_append, List.length_singleton, hblp]
      rw [hlen]
      rw [byteSplit_ascii]
      · rw [List.take_left, List.drop_left]
      · intro x hx
        rcases List.mem_append.mp hx with hx | hx
        · rw [← hdecomp] at hascii
          exact hascii x hx
        · have := isAsciiDigit_toNat (natToChars_all_digits _ x hx)
          omega
      · simp
    rw [hsplit]
    dsimp only []
    rw [show natToChars oct.toNat = intToChars oct from hoc.symm]
    rw [rustParseI16_intToChars hoct1 hoct2]
    rw [hdecomp]

/-! ## Accidental display round-trip pieces -/

theorem Accidental.fmt_ascii (v : Int) : ∀ x ∈ Accidental.fmt ⟨v⟩, x.toNat < 128 := by
  unfold Accidental.fmt
  dsimp only []
  split_ifs <;> intro x hx
  · simp at hx
  · rw [List.mem_singleton] at hx
    subst hx
    decide
  · rw [List.mem_singleton] at hx
    subst hx
    decide
  · rw [List.mem_singleton] at hx
    subst hx
    decide
  · rw [List.mem_singleton] at hx
    subst hx
    decide
  · rcases List.mem_cons.mp hx with hx | hx
    · subst hx
      decide
    · rcases List.mem_append.mp hx with hx | hx
      · have := isAsciiDigit_toNat (natToChars_all_digits _ x hx)
        omega
      · rcases List.mem_cons.mp hx with hx | hx
        · subst hx
          decide
        · rw [List.mem_singleton] at hx
          subst hx
          decide
  · rcases List.mem_cons.mp hx with hx | hx
    · subst hx
      decide
    · rcases List.mem_append.mp hx with hx | hx
      · have := isAsciiDigit_toNat (natToChars_all_digits _ x hx)
        omega
      · rcases List.mem_cons.mp hx with hx | hx
        · subst hx
          decide
        · rw [List.mem_singleton] at hx
          subst hx
          decide

theorem Accidental.from_str_paren (n : Nat) (mark : Char) (_h3 : 3 ≤ n) (h255 : n ≤ 255)
    (hmark : mark = '#' ∨ mark = 'b') :
    Accidental.from_str ('(' :: (natToChars n ++ [mark, ')'])) =
      some (Except.ok ⟨if mark = '#' then (n : Int) else -(n : Int)⟩) := by
  obtain ⟨c0, t0, h0⟩ := List.exists_cons_of_ne_nil (natToChars_ne_nil n)
  have hd0 : isAsciiDigit c0 = true := by
    apply natToChars_all_digits n
    rw [h0]
    exact List.mem_cons_self c0 t0
  have hfig : 48 ≤ c0.toNat ∧ c0.toNat ≤ 57 := isAsciiDigit_toNat hd0
  have hlen2 : 2 ≤ (natToChars n ++ [mark, ')']).length := by
    rw [List.length_append]
    simp
  unfold Accidental.from_str
  rw [if_neg, if_neg, if_neg, if_neg, if_neg]
  rotate_left
  · rintro (h | h | h) <;> rw [h0] at h <;> simp [List.cons.injEq] at h
  · rintro (h | h) <;> rw [h0] at h <;> simp [List.cons.injEq] at h
  · rintro (h | h | h) <;> rw [h0] at h <;> simp [List.cons.injEq] at h
  · rintro (h | h) <;> rw [h0] at h <;> simp [List.cons.injEq] at h
  · rintro (h | h | h) <;> rw [h0] at h <;> simp [List.cons.injEq] at h
  dsimp only []
  rw [if_pos rfl]
  rw [show natToChars n ++ [mark, ')'] = (natToChars n ++ [mark]) ++ [')'] from by simp]
  rw [List.getLast?_concat, if_pos rfl, List.dropLast_concat]
  have hascii2 : ∀ x ∈ natToChars n ++ [mark], x.toNat < 128 := by
    intro x hx
    rcases List.mem_append.mp hx with hx | hx
    · have := isAsciiDigit_toNat (natToChars_all_digits _ x hx)
      omega
    · rw [List.mem_singleton] at hx
      subst hx
      rcases hmark with h | h <;> subst h <;> decide
  have hbl2 : byteLen (natToChars n ++ [mark]) = (natToChars n ++ [mark]).length :=
    byteLen_ascii _ hascii2
  rw [if_neg (by rw [hbl2]; simp)]
  have hsplit : byteSplit (byteLen (natToChars n ++ [mark]) - 1) (natToChars n ++ [mark]) =
      some (natToChars n, [mark]) := by
    have hlen3 : byteLen (natToChars n ++ [mark]) - 1 = (natToChars n).length := by
      rw [hbl2, List.length_append, List.length_singleton]
      omega
    rw [hlen3]
    rw [byteSplit_ascii _ _ hascii2 (by simp)]
    rw [List.take_left, List.drop_left]
  rw [hsplit]
  dsimp only []
  rw [rustParseU8_natToChars h255]
  dsimp only []
  rw [List.getLast?_concat]
  rcases hmark with h | h <;> subst h
  · rw [if_pos rfl, if_pos rfl]
  · rw [if_neg (by decide), if_pos rfl, if_neg (by decide)]

/-! ## The pitch display round trip -/

theorem Pitch.from_str_fmt (dd cc : Int) (hd0 : -2000 ≤ dd) (hd1 : dd ≤ 2000)
    (hacc : (Pitch.accidental ⟨dd, cc⟩).val.natAbs ≤ 255) :
    Pitch.from_str (Pitch.fmt ⟨dd, cc⟩) = some (Except.ok ⟨dd, cc⟩) := by
  have hdec : Pitch.decompose ⟨dd, cc⟩ =
      (PitchName.from_diatonic_steps (dd % 7),
       ⟨cc - (dd / 7 * 12 + (PitchName.from_diatonic_steps (dd % 7)).to_chromatic_steps)⟩,
       dd / 7 + 4) := by
    unfold Pitch.decompose
    rw [div_remainder_eq _ _ (by norm_num)]
  have hcompose := Pitch.compose_decompose dd cc
  rw [hdec] at hcompose
  have hacc2 : (cc - (dd / 7 * 12 +
      (PitchName.from_diatonic_steps (dd % 7)).to_chromatic_steps)).natAbs ≤ 255 := by
    unfold Pitch.accidental at hacc
    rw [hdec] at hacc
    exact hacc
  have hdm := Int.ediv_add_emod dd 7
  have hr0 := Int.emod_nonneg dd (show (7 : Int) ≠ 0 by norm_num)
  have hr1 := Int.emod_lt_of_pos dd (show (0 : Int) < 7 by norm_num)
  have hoct1 : -32768 ≤ dd / 7 + 4 := by omega
  have hoct2 : dd / 7 + 4 ≤ 32767 := by omega
  have hlet := PitchName.from_diatonic_cases (dd % 7)
  unfold Pitch.fmt
  rw [hdec]
  dsimp only []
  set nm := PitchName.from_diatonic_steps (dd % 7) with hnmdef
  clear hnmdef
  clear_value nm
  set av := cc - (dd / 7 * 12 + nm.to_chromatic_steps) with havdef
  clear havdef
  clear_value av
  obtain ⟨l⟩ := nm
  have hl : l = 'C' ∨ l = 'D' ∨ l = 'E' ∨ l = 'F' ∨ l = 'G' ∨ l = 'A' ∨ l = 'B' := by
    simpa using hlet
  have h128 : l.toNat < 128 := by
    rcases hl with h | h | h | h | h | h | h <;> subst h <;> decide
  have hnew : PitchName.new l = some ⟨l⟩ := by
    rcases hl with h | h | h | h | h | h | h <;> subst h <;> decide
  have hlnd : isAsciiDigit l = false := by
    rcases hl with h | h | h | h | h | h | h <;> subst h <;> decide
  have hlm : l ≠ '-' := by
    rcases hl with h | h | h | h | h | h | h <;> subst h <;> decide
  have hmain : ∀ A : List Char, (∀ x ∈ A, x.toNat < 128) →
      (A = [] ∨ ∃ rest2 ce, A = rest2 ++ [ce] ∧ isAsciiDigit ce = false ∧ ce ≠ '-') →
      Accidental.from_str A = some (Except.ok ⟨av⟩) →
      Pitch.from_str ((l :: A) ++ intToChars (dd / 7 + 4)) = some (Except.ok ⟨dd, cc⟩) := by
    intro A hA hshape hparse
    rw [Pitch.from_str_structured l A (dd / 7 + 4) ?_ ?_ hoct1 hoct2]
    · rw [hnew]
      dsimp only []
      rw [hparse]
      dsimp only []
      rw [hcompose]
    · intro x hx
      rcases List.mem_cons.mp hx with hx | hx
      · rw [hx]
        exact h128
      · exact hA x hx
    · rcases hshape with rfl | ⟨rest2, ce, rfl, h1, h2⟩
      · exact ⟨l, by simp, hlnd, hlm⟩
      · refine ⟨ce, ?_, h1, h2⟩
        rw [show l :: (rest2 ++ [ce]) = (l :: rest2) ++ [ce] from by simp]
        exact List.getLast?_concat _
  rw [← List.cons_append]
  by_cases hv0 : av = 0
  · apply hmain _ (Accidental.fmt_ascii av)
    · left
      rw [hv0]
      decide
    · rw [hv0]
      decide
  · by_cases hv1 : av = 1
    · apply hmain _ (Accidental.fmt_ascii av)
      · right
        refine ⟨[], '#', ?_, by decide, by decide⟩
        rw [hv1]
        decide
      · rw [hv1]
        decide
    · by_cases hv2 : av = -1
      · apply hmain _ (Accidental.fmt_ascii av)
        · right
          refine ⟨[], 'b', ?_, by decide, by decide⟩
          rw [hv2]
          decide
        · rw [hv2]
          decide
      · by_cases hv3 : av = 2
        · apply hmain _ (Accidental.fmt_ascii av)
          · right
            refine ⟨[], '+', ?_, by decide, by decide⟩
            rw [hv3]
            decide
          · rw [hv3]
            decide
        · by_cases hv4 : av = -2
          · apply hmain _ (Accidental.fmt_ascii av)
            · right
              refine ⟨[], '&', ?_, by decide, by decide⟩
              rw [hv4]
              decide
            · rw [hv4]
              decide
          · by_cases hv5 : 0 < av
            · have hfmt : Accidental.fmt ⟨av⟩ = '(' :: (natToChars av.toNat ++ ['#', ')']) := by
                unfold Accidental.fmt
                dsimp only []
                rw [if_neg hv0, if_neg hv1, if_neg hv2, if_neg hv3, if_neg hv4, if_pos hv5]
              have hn3 : 3 ≤ av.toNat := by omega
              have hn255 : av.toNat ≤ 255 := by omega
              apply hmain _ (Accidental.fmt_ascii av)
              · right
                refine ⟨'(' :: natToChars av.toNat ++ ['#'], ')', ?_, by decide, by decide⟩
                rw [hfmt]
                simp
              · rw [hfmt]
                rw [Accidental.from_str_paren av.toNat '#' hn3 hn255 (Or.inl rfl)]
                rw [if_pos rfl]
                rw [Int.toNat_of_nonneg (by omega)]
            · have hfmt : Accidental.fmt ⟨av⟩ =
                  '(' :: (natToChars (-av).toNat ++ ['b', ')']) := by
                unfold Accidental.fmt
                dsimp only []
                rw [if_neg hv0, if_neg hv1, if_neg hv2, if_neg hv3, if_neg hv4, if_neg hv5]
              have hn3 : 3 ≤ (-av).toNat := by omega
              have hn255 : (-av).toNat ≤ 255 := by omega
              apply hmain _ (Accidental.fmt_ascii av)
              · right
                refine ⟨'(' :: natToChars (-av).toNat ++ ['b'], ')', ?_, by decide, by decide⟩
                rw [hfmt]
                simp
              · rw [hfmt]
                rw [Accidental.from_str_paren (-av).toNat 'b' hn3 hn255 (Or.inr rfl)]
                rw [if_neg (by decide)]
                rw [show ((((-av).toNat : Int)) : Int) = -av from Int.toNat_of_nonneg (by omega)]
                rw [neg_neg]

/-- `is_sorted` decides the adjacent-pairs chain of `Interval.le`. -/
theorem Interval.is_sorted_iff_chain (l : List Interval) :
    Interval.is_sorted l = true ↔ List.Chain' Interval.le l := by
  induction l with
  | nil => simp [Interval.is_sorted]
  | cons a rest ih =>
    cases rest with
    | nil => simp [Interval.is_sorted]
    | cons b rest2 =>
      rw [List.chain'_cons]
      unfold Interval.is_sorted
      rw [Bool.and_eq_true, decide_eq_true_iff, ih]

/-! ## Claim C1: the notation round trip -/

theorem Interval.from_str_fmt_signed (c d : Int)
    (hd0 : -2000 ≤ d) (hd1 : d ≤ 2000) (hc0 : -24000 ≤ c) (hc1 : c ≤ 24000) :
    Interval.from_str (Interval.fmt ⟨c, d⟩) = some (Except.ok ⟨c, d⟩) := by
  unfold Interval.fmt
  dsimp only []
  by_cases hdn : d < 0
  · rw [if_pos hdn]
    have hneg : Interval.neg ⟨c, d⟩ = ⟨-c, -d⟩ := rfl
    rw [hneg]
    simp only [Interval.from_str, if_true]
    rw [Interval.from_str_fmt_body (-c) (-d) (by omega) (by omega) (by omega) (by omega)]
    simp [Except.map, Interval.neg]
  · rw [if_neg hdn]
    exact Interval.from_str_fmt_body c d (by omega) (by omega) (by omega) (by omega)

/-- C1, counterexample: the pitch round trip fails as soon as the
accidental magnitude does not fit in a `u8`.  The pitch (0, 259) — a C4
raised by 259 semitones in spelling — formats as `"C(259#)4"`, whose
parenthesized accidental is parsed with `u8::from_str` and overflows, so
parsing returns `InvalidAccidental` instead of the original pitch. -/
theorem C1_round_trip_counterexample :
    Pitch.fmt (Pitch.mk 0 259) =
      ['C', '(', '2', '5', '9', '#', ')', '4'] ∧
    Pitch.from_str (Pitch.fmt (Pitch.mk 0 259)) =
      some (Except.error (ParsePitchError.invalidAccidental ['2', '5', '9', '#'])) ∧
    Pitch.from_str (Pitch.fmt (Pitch.mk 0 259)) ≠ some (Except.ok (Pitch.mk 0 259)) := by
  have hfmt : Pitch.fmt (Pitch.mk 0 259) = ['C', '(', '2', '5', '9', '#', ')', '4'] := by
    show 'C' :: (('(' :: (natToChars (259 : Int).toNat ++ ['#', ')'])) ++
      intToChars ((0 : Int) / 7 + 4)) = _
    unfold intToChars natToChars
    unfold natToChars
    unfold natToChars
    decide
  refine ⟨hfmt, ?_, ?_⟩ <;> rw [hfmt] <;> decide

/-- C1, amended: parsing inverts formatting for every interval whose
fields are in the no-overflow range (diatonic within ±2000, chromatic
within ±24000 — the "real score" headroom of the 16-bit design), and for
every pitch in that range whose accidental magnitude is at most 255 (the
parenthesized accidental is parsed as a `u8`, so larger magnitudes fail
to round-trip as shown by the counterexample). -/
theorem C1_round_trip_amended :
    (∀ i : Interval, -2000 ≤ i.diatonic → i.diatonic ≤ 2000 →
      -24000 ≤ i.chromatic → i.chromatic ≤ 24000 →
      Interval.from_str (Interval.fmt i) = some (Except.ok i)) ∧
    (∀ p : Pitch, -2000 ≤ p.diatonic → p.diatonic ≤ 2000 →
      p.accidental.val.natAbs ≤ 255 →
      Pitch.from_str (Pitch.fmt p) = some (Except.ok p)) := by
  constructor
  · intro i h1 h2 h3 h4
    obtain ⟨c, d⟩ := i
    exact Interval.from_str_fmt_signed c d h1 h2 h3 h4
  · intro p h1 h2 h3
    obtain ⟨dd, cc⟩ := p
    exact Pitch.from_str_fmt dd cc h1 h2 h3

/-- C1, witness: the amended round trip evaluated at the diminished
fifth (6, 4) and at E♭4 = (2, 3). -/
theorem C1_round_trip_amended_witness :
    Interval.from_str (Interval.fmt (Interval.mk 6 4)) =
      some (Except.ok (Interval.mk 6 4)) ∧
    Pitch.from_str (Pitch.fmt (Pitch.mk 2 3)) = some (Except.ok (Pitch.mk 2 3)) :=
  ⟨C1_round_trip_amended.1 (Interval.mk 6 4) (by decide) (by decide) (by decide) (by decide),
   C1_round_trip_amended.2 (Pitch.mk 2 3) (by decide) (by decide) (by decide)⟩

/-! ## Claim C2: the accidental-engine scenario -/

/-- C2: for the accidental calculator built from the B-flat major key
signature (key accidentals B♭ at staff position 6 and E♭ at staff
position 2), `get_and_update` on E♭4, A♭4, A♭4, A♭5 yields none,
flat, none, flat; after `clear`, E♭3 yields none, E4 yields natural and
E♭4 yields flat. -/
theorem C2_accidental_engine_scenario :
    KeyAccidental.mk 6 (Accidental.new (-1)) ∈ bflat_major_signature ∧
    KeyAccidental.mk 2 (Accidental.new (-1)) ∈ bflat_major_signature ∧
    bflat_scenario_outputs =
      [none, some (Accidental.new (-1)), none, some (Accidental.new (-1)),
        none, some (Accidental.new 0), some (Accidental.new (-1))] := by
  decide

/-! ## Claim C3: the dead octave-decrement branch of `to_pitch_named` -/

/-- C3: evaluation of the code at the failing input.  For the chromatic
pitch 0 (middle C) spelled with the letter B, the source's dead
decrement branch never fires, so the returned pitch is the B *above*
(diatonic 6) with accidental -11: the natural chromatic value of that B
is 11, at distance 11 > 6 from the target 0, contradicting the claimed
nearest-octave choice (accidental magnitude at most 6). -/
theorem C3_to_pitch_named_dead_branch_eval :
    ChromaticPitch.to_pitch_named ⟨0⟩ ⟨'B'⟩ = Pitch.mk 6 0 ∧
    (Pitch.mk 6 0).accidental = Accidental.new (-11) ∧
    ¬ (Pitch.mk 6 0).accidental.val.natAbs ≤ 6 := by
  decide

/-! ## Claim C6: the Unicode double-sharp / double-flat mix-up -/

/-- C6: evaluation of the code at the failing input.  `to_utf8` maps +2
to U+1D12A (double sharp) and -2 to U+1D12B (double flat), but
`Accidental::from_str` maps U+1D12A to -2 and U+1D12B to +2, so the
claimed round trip `from_str (to_utf8 a) = Ok a` fails exactly at ±2
(it does hold at -1, 0, +1). -/
theorem C6_unicode_double_accidental_swapped_eval :
    Accidental.to_utf8 (Accidental.new 2) = some (Char.ofNat 0x1d12a) ∧
    Accidental.to_utf8 (Accidental.new (-2)) = some (Char.ofNat 0x1d12b) ∧
    Accidental.from_str [Char.ofNat 0x1d12a] = some (Except.ok (Accidental.new (-2))) ∧
    Accidental.from_str [Char.ofNat 0x1d12b] = some (Except.ok (Accidental.new 2)) ∧
    Accidental.from_str ['♭'] = some (Except.ok (Accidental.new (-1))) ∧
    Accidental.from_str ['♮'] = some (Except.ok (Accidental.new 0)) ∧
    Accidental.from_str ['♯'] = some (Except.ok (Accidental.new 1)) := by
  decide

/-! ## Claim C7: `Pitch::from_str` panics on a multi-byte accidental -/

/-- C7: evaluation of the code at the failing input.  On `"C♭4"` the
computed byte index `octave_index = 2` is inside the three-byte
character `♭`, so the slice `&s[octave_index..]` is not at a character
boundary and the function panics (modelled by `none`) instead of
returning a typed error value. -/
theorem C7_pitch_parse_panics_on_multibyte_eval :
    Pitch.from_str ['C', '♭', '4'] = none ∧
    byteSplit 2 ['C', '♭', '4'] = none := by
  decide

/-! ## Claim C8: the seven diatonic modes by rotation -/

/-- C8: rotating the major scale with `nth_mode` yields exactly the
named diatonic mode constants, wrapping after seven steps:
`nth_mode 1` is dorian, 2 phrygian, 3 lydian, 4 mixolydian, 5 aeolian,
6 locrian, and 7 ionian again. -/
theorem C8_major_modes :
    Scale.nth_mode Scale.major 1 = some Scale.dorian ∧
    Scale.nth_mode Scale.major 2 = some Scale.phrygian ∧
    Scale.nth_mode Scale.major 3 = some Scale.lydian ∧
    Scale.nth_mode Scale.major 4 = some Scale.mixolydian ∧
    Scale.nth_mode Scale.major 5 = some Scale.aeolian ∧
    Scale.nth_mode Scale.major 6 = some Scale.locrian ∧
    Scale.nth_mode Scale.major 7 = some Scale.ionian := by
  decide

/-! ## Claim C10: pitch order versus chromatic projection -/

/-- C10: `Ord for Pitch` compares the diatonic field first and the
chromatic field on ties — the opposite field order from `Ord for
Interval`, which compares chromatic first.  Consequently the projection
to chromatic pitch is not monotone: E♯4 (parsed to (2,5)) is below F♭4
(parsed to (3,4)) in pitch order although its chromatic value 5 is
higher, and `cmp_chromatic` orders that pair the other way. -/
theorem C10_pitch_order_vs_chromatic :
    (∀ p q : Pitch,
      Pitch.cmp p q = (compare p.diatonic q.diatonic).then (compare p.chromatic q.chromatic)) ∧
    (∀ a b : Interval,
      Interval.cmp a b = (compare a.chromatic b.chromatic).then (compare a.diatonic b.diatonic)) ∧
    (∃ p q : Pitch, Pitch.cmp p q = Ordering.lt ∧ q.chromatic < p.chromatic ∧
      Pitch.cmp_chromatic p q = Ordering.gt) ∧
    Pitch.from_str ['E', '#', '4'] = some (Except.ok (Pitch.mk 2 5)) ∧
    Pitch.from_str ['F', 'b', '4'] = some (Except.ok (Pitch.mk 3 4)) ∧
    Pitch.cmp (Pitch.mk 2 5) (Pitch.mk 3 4) = Ordering.lt ∧
    (Pitch.mk 2 5).to_chromatic = ChromaticPitch.mk 5 ∧
    (Pitch.mk 3 4).to_chromatic = ChromaticPitch.mk 4 ∧
    Pitch.cmp_chromatic (Pitch.mk 2 5) (Pitch.mk 3 4) = Ordering.gt := by
  refine ⟨?_, ?_, ?_, ?_⟩
  · intro p q
    cases h : compare p.diatonic q.diatonic <;>
      simp [Pitch.cmp, Ordering.then, h]
  · intro a b
    cases h : compare a.chromatic b.chromatic <;>
      simp [Interval.cmp, Ordering.then, h]
  · exact ⟨Pitch.mk 2 5, Pitch.mk 3 4, by decide, by decide, by decide⟩
  · refine ⟨?_, ?_, ?_, ?_, ?_, ?_⟩ <;> decide

/-! ## Claim C4: normality of scale constructors -/

theorem Interval.cmp_chromatic_eq_gt_iff (a b : Interval) :
    Interval.cmp_chromatic a b = Ordering.gt ↔ Interval.lt b a := by
  unfold Interval.cmp_chromatic Interval.lt
  cases hc : compare a.chromatic b.chromatic
  · have h1 := compare_lt_iff_lt.mp hc
    simp only []
    constructor
    · intro h
      exact absurd h (by simp)
    · intro h
      omega
  · have h1 := compare_eq_iff_eq.mp hc
    simp only []
    rw [show (compare a.diatonic b.diatonic = Ordering.gt) ↔ b.diatonic < a.diatonic from
      compare_gt_iff_gt]
    omega
  · have h1 := compare_gt_iff_gt.mp hc
    simp only []
    constructor
    · intro _
      omega
    · intro _
      trivial

theorem Scale.sortRel_iff_le (a b : Interval) :
    Scale.sortRel a b ↔ Interval.le a b := by
  unfold Scale.sortRel
  rw [ne_eq, Interval.cmp_chromatic_eq_gt_iff]
  unfold Interval.lt Interval.le
  omega

theorem Interval.le_antisymm {a b : Interval} (h1 : Interval.le a b) (h2 : Interval.le b a) :
    a = b := by
  unfold Interval.le at h1 h2
  have hc : a.chromatic = b.chromatic := by omega
  have hd : a.diatonic = b.diatonic := by omega
  cases a
  cases b
  simp_all

/-- An insertion sort by the `cmp_chromatic` comparator is sorted in the
`Interval.le` order. -/
theorem Scale.pairwise_le_insertionSort (l : List Interval) :
    List.Pairwise Interval.le (List.insertionSort Scale.sortRel l) := by
  haveI : IsTotal Interval Scale.sortRel :=
    ⟨fun a b => by
      rw [Scale.sortRel_iff_le, Scale.sortRel_iff_le]
      unfold Interval.le
      omega⟩
  haveI : IsTrans Interval Scale.sortRel :=
    ⟨fun a b c hab hbc => by
      rw [Scale.sortRel_iff_le] at hab hbc ⊢
      unfold Interval.le at hab hbc ⊢
      omega⟩
  exact (List.sorted_insertionSort Scale.sortRel l).imp fun h => (Scale.sortRel_iff_le _ _).mp h

/-- C4, counterexample: `Scale::new` does not deduplicate.  On the input
`[unison, unison]` the output is `[unison, unison]` itself, which is not
strictly increasing in the canonical order. -/
theorem C4_scale_new_counterexample :
    Scale.new [Interval.new 0 0, Interval.new 0 0] =
      some [Interval.new 0 0, Interval.new 0 0] ∧
    ¬ List.Chain' Interval.lt [Interval.new 0 0, Interval.new 0 0] := by
  constructor
  · decide
  · intro h
    have h1 := (List.chain'_cons.mp h).1
    exact absurd h1 (by decide)

/-- C4, amended: `Scale::new` (on a non-empty input) always returns a
list whose first element is unison and whose tail is non-strictly sorted
in the canonical (chromatic-first) order; the whole list is sorted
whenever every octave-reduced input is at least unison.  `nth_mode`
always returns a non-strictly sorted list containing unison, whose first
element is unison whenever every element of the result is at least
unison.  Duplicates are not removed, so sortedness is non-strict. -/
theorem C4_scale_constructors_amended :
    (∀ (l s : List Interval), Scale.new l = some s →
      s.head? = some (Interval.new 0 0) ∧
      List.Chain' Interval.le s.tail ∧
      ((∀ i ∈ l, Interval.le (Interval.new 0 0) i.remChromaticOctave) →
        List.Chain' Interval.le s)) ∧
    (∀ (l : List Interval) (n : Nat) (s : List Interval), Scale.nth_mode l n = some s →
      List.Chain' Interval.le s ∧
      Interval.new 0 0 ∈ s ∧
      ((∀ i ∈ s, Interval.le (Interval.new 0 0) i) →
        s.head? = some (Interval.new 0 0))) := by
  constructor
  · intro l s hnew
    unfold Scale.new at hnew
    dsimp only [] at hnew
    rcases hcase : (if Interval.is_sorted (List.map Interval.remChromaticOctave l) = true
        then List.map Interval.remChromaticOctave l
        else List.insertionSort Scale.sortRel (List.map Interval.remChromaticOctave l)) with
      _ | ⟨x, rest⟩
    · rw [hcase] at hnew
      simp at hnew
    · rw [hcase] at hnew
      simp only [Option.some_inj] at hnew
      have hchain : List.Chain' Interval.le (x :: rest) := by
        by_cases hs : Interval.is_sorted (List.map Interval.remChromaticOctave l) = true
        · rw [if_pos hs] at hcase
          rw [← hcase]
          exact (Interval.is_sorted_iff_chain _).mp hs
        · rw [if_neg hs] at hcase
          rw [← hcase]
          exact (Scale.pairwise_le_insertionSort _).chain'
      have hperm : ∀ y ∈ x :: rest, y ∈ List.map Interval.remChromaticOctave l := by
        intro y hy
        by_cases hs : Interval.is_sorted (List.map Interval.remChromaticOctave l) = true
        · rw [if_pos hs] at hcase
          rw [hcase]
          exact hy
        · rw [if_neg hs] at hcase
          rw [← hcase] at hy
          exact (List.perm_insertionSort Scale.sortRel _).mem_iff.mp hy
      by_cases hx : x = Interval.new 0 0
      · rw [if_pos hx] at hnew
        subst hnew
        exact ⟨by simp [hx], hchain.tail, fun _ => hchain⟩
      · rw [if_neg hx] at hnew
        subst hnew
        refine ⟨rfl, hchain, ?_⟩
        intro hall
        have hxmem := hperm x (List.mem_cons_self x rest)
        obtain ⟨i, hi, hix⟩ := List.mem_map.mp hxmem
        have hux : Interval.le (Interval.new 0 0) x := by
          rw [← hix]
          exact hall i hi
        exact List.chain'_cons.mpr ⟨hux, hchain⟩
  · intro l n s hmode
    unfold Scale.nth_mode at hmode
    by_cases hlen : l.length = 0
    · rw [if_pos hlen] at hmode
      simp at hmode
    · rw [if_neg hlen] at hmode
      dsimp only [] at hmode
      by_cases hnorm : Scale.is_normal l = false
      · rw [if_pos hnorm] at hmode
        simp at hmode
      · rw [if_neg hnorm] at hmode
        have hnorm2 : Scale.is_normal l = true := by
          cases h : Scale.is_normal l
          · exact absurd h hnorm
          · rfl
        have hhead : l.head? = some (Interval.new 0 0) := by
          unfold Scale.is_normal at hnorm2
          rw [Bool.and_eq_true, decide_eq_true_iff] at hnorm2
          exact hnorm2.2
        by_cases h1 : l.length = 1
        · rw [if_pos h1] at hmode
          simp only [Option.some_inj] at hmode
          subst hmode
          match l, h1, hhead with
          | [a], _, hhead =>
            have ha : a = Interval.new 0 0 := by
              simpa using hhead
            subst ha
            exact ⟨List.chain'_singleton _, List.mem_singleton_self _, fun _ => rfl⟩
        · rw [if_neg h1] at hmode
          simp only [Option.some_inj] at hmode
          have hpair : List.Pairwise Interval.le s := by
            rw [← hmode]
            exact Scale.pairwise_le_insertionSort _
          have hchain : List.Chain' Interval.le s := hpair.chain'
          have hmem : Interval.new 0 0 ∈ s := by
            rw [← hmode]
            rw [(List.perm_insertionSort Scale.sortRel _).mem_iff]
            have hidx : n % l.length < l.length := Nat.mod_lt n (by omega)
            have hin : l.getD (n % l.length) (Interval.new 0 0) ∈ l := by
              rw [List.getD_eq_getElem l (Interval.new 0 0) hidx]
              exact List.getElem_mem hidx
            have himg : ∀ j : Interval, (j.sub j).remChromaticOctave = Interval.new 0 0 := by
              intro j
              have hsub : j.sub j = Interval.new 0 0 := by
                unfold Interval.sub Interval.add Interval.neg Interval.new
                congr 1 <;> ring
              rw [hsub]
              decide
            have hmm := List.mem_map_of_mem
              (fun i => (Interval.sub i (l.getD (n % l.length)
                (Interval.new 0 0))).remChromaticOctave) hin
            simpa only [himg] using hmm
          refine ⟨hchain, hmem, ?_⟩
          intro hall
          cases s with
          | nil => simp at hmem
          | cons x rest =>
            have hux : Interval.le (Interval.new 0 0) x :=
              hall x (List.mem_cons_self x rest)
            rcases List.mem_cons.mp hmem with heq | htail
            · simp [← heq]
            · have hxu : Interval.le x (Interval.new 0 0) :=
                (List.pairwise_cons.mp hpair).1 _ htail
              simp [Interval.le_antisymm hxu hux]

/-- C4, witness: the amended theorem applied to the concrete inputs
`Scale::new [major third]` and `Scale::major.nth_mode 1`. -/
theorem C4_scale_constructors_amended_witness :
    (([Interval.new 0 0, Interval.new 4 2] : List Interval).head? =
        some (Interval.new 0 0) ∧
      List.Chain' Interval.le ([Interval.new 0 0, Interval.new 4 2] : List Interval)) ∧
    (List.Chain' Interval.le Scale.dorian ∧
      Interval.new 0 0 ∈ Scale.dorian ∧
      Scale.dorian.head? = some (Interval.new 0 0)) := by
  have h1 := C4_scale_constructors_amended.1 [Interval.new 4 2]
    [Interval.new 0 0, Interval.new 4 2] (by decide)
  have h2 := C4_scale_constructors_amended.2 Scale.major 1 Scale.dorian (by decide)
  exact ⟨⟨h1.1, h1.2.2 (by decide)⟩, h2.1, h2.2.1, h2.2.2 (by decide)⟩

/-- C5, counterexample: on the input `"(−1)1"` written with the
typographic minus U+2212, exactly as the spec prints it, the parser
returns `InvalidQuality "−1"` (because `i16::from_str` rejects the
non-ASCII sign), not `Impossible` and not `InvalidNumber`. -/
theorem C5_quality_rules_counterexample :
    Interval.from_str ['(', Char.ofNat 0x2212, '1', ')', '1'] =
      some (Except.error (ParseIntervalError.invalidQuality [Char.ofNat 0x2212, '1'])) ∧
    (∀ n : Int, ∀ q : Option (List Char),
      Interval.from_str ['(', Char.ofNat 0x2212, '1', ')', '1'] ≠
        some (Except.error (ParseIntervalError.impossible n q))) ∧
    (∀ s : List Char,
      Interval.from_str ['(', Char.ofNat 0x2212, '1', ')', '1'] ≠
        some (Except.error (ParseIntervalError.invalidNumber s))) := by
  have h : Interval.from_str ['(', Char.ofNat 0x2212, '1', ')', '1'] =
      some (Except.error (ParseIntervalError.invalidQuality [Char.ofNat 0x2212, '1'])) := by
    decide
  refine ⟨h, ?_, ?_⟩
  · intro n q hcontra
    rw [h] at hcontra
    simp at hcontra
  · intro s hcontra
    rw [h] at hcontra
    simp at hcontra

/-- C5, amended: the five spec examples written in plain ASCII (with
`"(-1)1"` using the ASCII hyphen-minus) all fail with `Impossible`, and
in general a parenthesized quality of `1` or `-1` on a perfect-family
number and a parenthesized quality of `0` on a minor/major-family
number are rejected as `Impossible`. -/
theorem C5_quality_rules_amended :
    (Interval.from_str ['m', '1'] =
        some (Except.error (ParseIntervalError.impossible 1 (some ['m']))) ∧
      Interval.from_str ['3'] =
        some (Except.error (ParseIntervalError.impossible 3 none)) ∧
      Interval.from_str ['1', '6'] =
        some (Except.error (ParseIntervalError.impossible 16 none)) ∧
      Interval.from_str ['m', '1', '1'] =
        some (Except.error (ParseIntervalError.impossible 11 (some ['m']))) ∧
      Interval.from_str ['(', '0', ')', '3'] =
        some (Except.error (ParseIntervalError.impossible 3 (some ['0']))) ∧
      Interval.from_str ['(', '-', '1', ')', '1'] =
        some (Except.error (ParseIntervalError.impossible 1 (some ['-', '1'])))) ∧
    ∀ num : Nat, num ≤ 32767 →
      (Interval.has_perfect ((num : Int) - 1) = true →
        Interval.from_str (('(' :: (('1' :: ([] : List Char)) ++ [')'])) ++ natToChars num) =
          some (Except.error (ParseIntervalError.impossible (num : Int) (some ['1']))) ∧
        Interval.from_str (('(' :: (('-' :: ['1']) ++ [')'])) ++ natToChars num) =
          some (Except.error (ParseIntervalError.impossible (num : Int) (some ['-', '1'])))) ∧
      (Interval.has_perfect ((num : Int) - 1) = false →
        Interval.from_str (('(' :: (('0' :: ([] : List Char)) ++ [')'])) ++ natToChars num) =
          some (Except.error (ParseIntervalError.impossible (num : Int) (some ['0'])))) := by
  refine ⟨⟨by decide, by decide, by decide, by decide, by decide, by decide⟩, ?_⟩
  intro num hb
  refine ⟨?_, ?_⟩
  · intro hp
    constructor
    · rw [Interval.from_str_paren_quality '1' [] (by decide) num hb]
      unfold Interval.parse_quality_paren
      rw [show rustParseI16 ['1'] = some 1 from by decide]
      dsimp only []
      rw [if_pos hp]
      rw [if_neg (by norm_num), if_neg (by norm_num), if_neg (by norm_num)]
    · rw [Interval.from_str_paren_quality '-' ['1'] (by decide) num hb]
      unfold Interval.parse_quality_paren
      rw [show rustParseI16 ['-', '1'] = some (-1) from by decide]
      dsimp only []
      rw [if_pos hp]
      rw [if_neg (by norm_num), if_neg (by norm_num), if_neg (by norm_num)]
  · intro hnp
    rw [Interval.from_str_paren_quality '0' [] (by decide) num hb]
    unfold Interval.parse_quality_paren
    rw [show rustParseI16 ['0'] = some 0 from by decide]
    dsimp only []
    rw [if_neg (by simp [hnp])]
    rw [if_neg (by norm_num), if_neg (by norm_num)]

/-- C5, witness: the amended theorem applied to the perfect-family
number 4 and to the minor/major-family number 6. -/
theorem C5_quality_rules_amended_witness :
    Interval.from_str (('(' :: (('1' :: ([] : List Char)) ++ [')'])) ++ natToChars 4) =
      some (Except.error (ParseIntervalError.impossible ((4 : Nat) : Int) (some ['1']))) ∧
    Interval.from_str (('(' :: (('0' :: ([] : List Char)) ++ [')'])) ++ natToChars 6) =
      some (Except.error (ParseIntervalError.impossible ((6 : Nat) : Int) (some ['0']))) :=
  ⟨((C5_quality_rules_amended.2 4 (by norm_num)).1 (by decide)).1,
    (C5_quality_rules_amended.2 6 (by norm_num)).2 (by decide)⟩

set_option maxHeartbeats 1600000 in
theorem Accidental.from_str_not_noOctave (s : List Char) :
    Accidental.from_str s ≠ some (Except.error ParsePitchError.noOctaveFound) := by
  intro h
  unfold Accidental.from_str at h
  repeat' split at h
  all_goals try simp_all
  all_goals obtain ⟨hbl, h2⟩ := h
  all_goals repeat' split at h2
  all_goals simp_all

theorem charIndicesFrom_mem_of_mem {l : List Char} {c : Char} (h : c ∈ l) (ofs : Nat) :
    ∃ k, (k, c) ∈ charIndicesFrom ofs l := by
  induction l generalizing ofs with
  | nil => simp at h
  | cons a rest ih =>
    unfold charIndicesFrom
    rcases List.mem_cons.mp h with heq | hm
    · exact ⟨ofs, by rw [heq]; exact List.mem_cons_self _ _⟩
    · obtain ⟨k, hk⟩ := ih hm (ofs + a.utf8Size)
      exact ⟨k, List.mem_cons_of_mem _ hk⟩

theorem Pitch.from_str_noOctave_iff (l : List Char) :
    Pitch.from_str l = some (Except.error ParsePitchError.noOctaveFound) ↔
      ∀ c ∈ l, isAsciiDigit c = true := by
  constructor
  · intro h
    by_contra hnot
    push_neg at hnot
    obtain ⟨c, hc, hcd⟩ := hnot
    have hcd' : isAsciiDigit c = false := by
      cases hval : isAsciiDigit c
      · rfl
      · exact absurd hval hcd
    have hfind : ((charIndices l).reverse.find? fun p => !(isAsciiDigit p.2)).isSome := by
      rw [List.find?_isSome]
      obtain ⟨k, hk⟩ := charIndicesFrom_mem_of_mem hc 0
      exact ⟨(k, c), List.mem_reverse.mpr hk, by simp [hcd']⟩
    unfold Pitch.from_str at h
    obtain ⟨q, hq⟩ := Option.isSome_iff_exists.mp hfind
    rw [hq] at h
    dsimp only [] at h
    repeat' split at h
    all_goals try simp_all
    all_goals exact Accidental.from_str_not_noOctave _ (by assumption)
  · intro h
    unfold Pitch.from_str
    rw [show charIndices l = charIndicesFrom 0 l from rfl]
    rw [find?_rev_digits 0 l h]

/-- C9, counterexample: parsing `"C"`, which has no trailing run of
ASCII digits, does not fail with `NoOctaveFound` as claimed; it fails
with `InvalidOctave("")`. -/
theorem C9_error_cases_counterexample :
    Pitch.from_str ['C'] = some (Except.error (ParsePitchError.invalidOctave [])) ∧
    Pitch.from_str ['C'] ≠ some (Except.error ParsePitchError.noOctaveFound) := by
  constructor
  · decide
  · decide

/-- C9, amended: `Pitch::from_str` fails with `NoOctaveFound` exactly
when every character of the input is an ASCII digit (in particular on
the empty string); a remainder whose first character is not a letter
`A`-`G` gives `InvalidPitchName`, and a trailing digit run whose
isolated octave substring overflows `i16` gives `InvalidOctave`. -/
theorem C9_error_cases_amended :
    (∀ l : List Char,
      Pitch.from_str l = some (Except.error ParsePitchError.noOctaveFound) ↔
        ∀ c ∈ l, isAsciiDigit c = true) ∧
    Pitch.from_str ['c', '4'] =
      some (Except.error (ParsePitchError.invalidPitchName ['c'])) ∧
    Pitch.from_str ['H', '4'] =
      some (Except.error (ParsePitchError.invalidPitchName ['H'])) ∧
    Pitch.from_str ['C', '9', '9', '9', '9', '9'] =
      some (Except.error (ParsePitchError.invalidOctave ['9', '9', '9', '9', '9'])) :=
  ⟨Pitch.from_str_noOctave_iff, by decide, by decide, by decide⟩

end MusicTypes

